import Mathlib

/-!
Verification of the NEAT engine core (genome graph algorithms, crossover,
speciation, generational driver) against its natural-language specification.

Modelling conventions:
* IEEE `f64` values are modelled as exact rationals (`Rat`).  None of the
  properties below hinges on rounding of ordinary arithmetic; the single
  place where a genuine IEEE artefact matters (a `0.0 / 0.0` producing NaN
  in `are_genomes_related`) is modelled explicitly and documented at the
  definition.
* `f64::EPSILON` is the rational `1 / 2 ^ 52`.
* Rust `HashMap`s are modelled as association lists; where the source
  iterates a `HashMap` in unspecified order the embedding fixes insertion
  order, and the theorems quantify over the list so any order is covered.
* Panics (`unwrap`, `expect`, mixed-kind crossover, ...) are modelled by
  `Option`: `none` is a panic.
* The random source is explicit: every `random::<f64>() < 0.5` draw is a
  `Bool` taken from a stream `coin : Nat → Bool` at an increasing index,
  and the single `random::<usize>()` draw of `crossover` is a `Nat`.
-/

namespace Neat

/-- Kind of a node gene (`node.rs`): input, hidden or output. -/
inductive NodeKind where
  | Input : NodeKind
  | Hidden : NodeKind
  | Output : NodeKind
deriving DecidableEq, Repr

/-- Modelled from the spec: the node-gene record (`genes.rs` is not among the
sources).  A node gene carries its kind, a bias, and activation/aggregation
tags; the tags are modelled as numbers since only equality of tags is ever
used. -/
structure NodeGene where
  kind : NodeKind
  bias : Rat
  activation : Nat
  aggregation : Nat
deriving DecidableEq, Repr

/-- Modelled from the spec: the connection-gene record (`genes.rs` is not
among the sources).  `fromIdx`/`toIdx` name the `from`/`to` fields of the
source (`from` is a reserved word in Lean). -/
structure ConnectionGene where
  fromIdx : Nat
  toIdx : Nat
  weight : Rat
  disabled : Bool
  innovation : Nat
deriving DecidableEq, Repr

/-- Modelled from the spec: `ConnectionGene::new(from, to)` yields an enabled
gene with the given endpoints; its weight comes from the initial distribution
and its innovation number from the registry, neither of which matters for the
graph-structure claims, so both are modelled as `0`. -/
def ConnectionGene.new (f t : Nat) : ConnectionGene :=
  ⟨f, t, 0, false, 0⟩

/-- The genotype of `src/genome/mod.rs`: input/output counts plus ordered
lists of node genes and connection genes. -/
structure Genome where
  inputs : Nat
  outputs : Nat
  connection_genes : List ConnectionGene
  node_genes : List NodeGene
deriving DecidableEq, Repr

namespace Genome

/-- `Genome::empty` (`mod.rs`): a genome with no genes. -/
def empty (inputs outputs : Nat) : Genome :=
  ⟨inputs, outputs, [], []⟩

/-- The enabled connection genes of a genome, in order. -/
def enabled (g : Genome) : List ConnectionGene :=
  g.connection_genes.filter (fun c => !c.disabled)

/-- The `(from, to)` pairs of the enabled connection genes. -/
def enabledEdges (g : Genome) : List (Nat × Nat) :=
  g.enabled.map (fun c => (c.fromIdx, c.toIdx))

end Genome

/-- The indices of the `Input` nodes in index order: the seed of
`get_node_order`, which marks input nodes as visited up front (the source
enumerates node genes and keeps the indices of those of kind `Input`). -/
def inputSeeds (nodes : List NodeGene) : List Nat :=
  (List.range nodes.length).filter (fun i =>
    match nodes.get? i with
    | some nd => nd.kind == NodeKind.Input
    | none => false)

/-- One round of the `get_node_order` loop: the unvisited node indices all of
whose predecessors (along the given connection list) are already visited, in
index order — the `nodes_to_visit` vector of the source (which enumerates the
node genes and filters on the index alone). -/
def readyNodes (conns : List ConnectionGene) (nodes : List NodeGene)
    (visited : List Nat) : List Nat :=
  (List.range nodes.length).filter (fun i =>
    !(visited.contains i) &&
      ((conns.filter (fun c => c.toIdx == i)).map (fun c => c.fromIdx)).all
        (fun j => visited.contains j))

/-- The `while newly_visited != 0` loop of `get_node_order`, with explicit
fuel.  Each productive round strictly grows `visited` inside
`0, …, nodes.length − 1`, so fuel `nodes.length + 1` always reaches the
fixpoint the unbounded source loop computes (proved in
`readyNodes_kahnLoop_eq_nil`). -/
def kahnLoop (conns : List ConnectionGene) (nodes : List NodeGene) :
    Nat → List Nat → List Nat
  | 0, visited => visited
  | fuel + 1, visited =>
      let next := readyNodes conns nodes visited
      if next.isEmpty then visited
      else kahnLoop conns nodes fuel (visited ++ next)

namespace Genome

/-- `Genome::get_node_order` (`mod.rs:226-281`): Kahn-style layering over the
enabled connections plus the optional extra connections, inputs seeded as
visited; `none` when the loop stalls before visiting every node. -/
def get_node_order (g : Genome) (additional : Option (List ConnectionGene)) :
    Option (List Nat) :=
  let connections := g.enabled ++ additional.getD []
  let visited := kahnLoop connections g.node_genes (g.node_genes.length + 1)
    (inputSeeds g.node_genes)
  if visited.length == g.node_genes.length then some visited else none

/-- `Genome::node_order`. -/
def node_order (g : Genome) : Option (List Nat) :=
  g.get_node_order none

/-- `Genome::node_order_with`. -/
def node_order_with (g : Genome) (additional : List ConnectionGene) :
    Option (List Nat) :=
  g.get_node_order (some additional)

/-- `Genome::is_projecting_directly`: some enabled connection goes
`source → target`. -/
def is_projecting_directly (g : Genome) (source target : Nat) : Bool :=
  g.enabled.any (fun c => c.fromIdx == source && c.toIdx == target)

end Genome

/-- The breadth-first loop of `Genome::is_projecting` (`mod.rs:305-326`),
with explicit fuel.  The popped node `i` is inserted into `visited_nodes`
right before the successor filter tests `!visited_nodes.contains(&i)` — the
test in the source compares against `i` itself (not `c.to`), so it is always
false and no successor is ever enqueued; any fuel `≥ 1` therefore reproduces
the unbounded source loop exactly (proved in `isProjectingLoop_head`). -/
def isProjectingLoop (g : Genome) (target : Nat) :
    Nat → List Nat → List Nat → Bool
  | _, _, [] => false
  | 0, _, _ => false
  | fuel + 1, visited, i :: queue =>
      let visited' := i :: visited
      if g.is_projecting_directly i target then true
      else
        let pushed := (g.connection_genes.filter (fun c =>
          c.fromIdx == i && !c.disabled && !(visited'.contains i))).map
            (fun c => c.toIdx)
        isProjectingLoop g target fuel visited' (queue ++ pushed)

namespace Genome

/-- `Genome::is_projecting` (`mod.rs:305-326`): start the queue at `source`,
run the loop. -/
def is_projecting (g : Genome) (source target : Nat) : Bool :=
  isProjectingLoop g target (g.node_genes.length + 1) [] [source]

/-- `Genome::can_connect` (`mod.rs:332-349`).  `none` models the panic of the
two `unwrap`s on out-of-range node indices. -/
def can_connect (g : Genome) (f t : Nat) : Option Bool := do
  let fromNode ← g.node_genes.get? f
  let toNode ← g.node_genes.get? t
  if fromNode.kind == NodeKind.Output || toNode.kind == NodeKind.Input
      || (g.node_order_with [ConnectionGene.new f t]).isNone then
    pure false
  else
    pure (!(g.is_projecting f t))

end Genome

/-- `iter_mut().find(...)` of `add_connection`: re-enable the first
connection gene with the given endpoints. -/
def enableFirst : List ConnectionGene → Nat → Nat → List ConnectionGene
  | [], _, _ => []
  | c :: rest, f, t =>
      if c.fromIdx == f && c.toIdx == t then
        { c with disabled := false } :: rest
      else
        c :: enableFirst rest f t

namespace Genome

/-- `Genome::add_connection` (`mod.rs:351-368`): `Except.error` models
`Err(())` (genome returned unchanged); on success the first existing
`(from, to)` gene is re-enabled, otherwise a fresh gene is pushed, and the
returned index is `connection_genes.len() - 1`.  `none` models the panic
inside `can_connect`. -/
def add_connection (g : Genome) (f t : Nat) :
    Option (Except Unit Nat × Genome) := do
  let ok ← g.can_connect f t
  if !ok then
    pure (Except.error (), g)
  else
    let conns :=
      if g.connection_genes.any (fun c => c.fromIdx == f && c.toIdx == t) then
        enableFirst g.connection_genes f t
      else
        g.connection_genes ++ [ConnectionGene.new f t]
    let g' : Genome := { g with connection_genes := conns }
    pure (Except.ok (g'.connection_genes.length - 1), g')

end Genome

/-! ### Specification-side graph notions

`reachesIn E fuel u v` holds when some path of between 1 and `fuel` edges of
`E` leads from `u` to `v`; `hasCycle n E` says some node below `n` lies on a
directed cycle of `E`.  A closed walk always contains a simple cycle, whose
length is at most the number of nodes, so fuel `n` is enough. -/

/-- Reachability along edges of `E` by a path of 1 to `fuel` edges. -/
def reachesIn (E : List (Nat × Nat)) : Nat → Nat → Nat → Bool
  | 0, _, _ => false
  | fuel + 1, u, v =>
      E.any (fun e => e.1 == u && (e.2 == v || reachesIn E fuel e.2 v))

/-- The edge list `E` over nodes `0, …, n − 1` contains a directed cycle. -/
def hasCycle (n : Nat) (E : List (Nat × Nat)) : Bool :=
  (List.range n).any (fun v => reachesIn E n v v)

/-- The `(from, to)` pairs of a connection list. -/
def edgesOf (conns : List ConnectionGene) : List (Nat × Nat) :=
  conns.map (fun c => (c.fromIdx, c.toIdx))

/-- A list is a topological order of the edge list `E` when the source of
every edge appears strictly before its target. -/
def isTopoOrder (E : List (Nat × Nat)) (order : List Nat) : Prop :=
  ∀ e ∈ E, order.indexOf e.1 < order.indexOf e.2

/-! ### Crossover (`src/genome/mod.rs:69-224`) -/

/-- `f64::EPSILON`, the tolerance of the `fitnesses_equal` test. -/
def epsF : Rat := 1 / 2 ^ 52

/-- The target node count of `crossover` (`mod.rs:85-99`): with fitnesses
equal within `f64::EPSILON`, either the common count, or
`node_min + random_usize % (node_max - node_min)` (note: the modulus makes
`node_max` itself unreachable); with distinct fitnesses, the fitter parent's
count.  `nd` is the `random::<usize>()` draw. -/
def nodeCountTarget (la lb : Nat) (fa fb : Rat) (nd : Nat) : Nat :=
  if abs (fa - fb) < epsF then
    let node_max := max la lb
    let node_min := min la lb
    if node_max - node_min == 0 then node_max
    else node_min + nd % (node_max - node_min)
  else if fa > fb then la else lb

/-- The hidden-node loop of `crossover` (`mod.rs:111-141`) over the index
range `inputs .. node_count - outputs`, threading the index `k` of the next
`random::<f64>() < 0.5` draw; `none` models the two panics (both parents
missing the position, or both nodes non-`Hidden`).  `coin k = true` models
`random::<f64>() < 0.5`, which selects parent A. -/
def pickHiddenNodes (a b : Genome) (coin : Nat → Bool) :
    List Nat → Nat → Option (List NodeGene × Nat)
  | [], k => some ([], k)
  | i :: rest, k =>
      match a.node_genes.get? i, b.node_genes.get? i with
      | none, none => none
      | some na, none => do
          let (l, k') ← pickHiddenNodes a b coin rest k
          pure (na :: l, k')
      | none, some nb => do
          let (l, k') ← pickHiddenNodes a b coin rest k
          pure (nb :: l, k')
      | some na, some nb =>
          match na.kind == NodeKind.Hidden, nb.kind == NodeKind.Hidden with
          | true, false => do
              let (l, k') ← pickHiddenNodes a b coin rest k
              pure (na :: l, k')
          | false, true => do
              let (l, k') ← pickHiddenNodes a b coin rest k
              pure (nb :: l, k')
          | true, true => do
              let (l, k') ← pickHiddenNodes a b coin rest (k + 1)
              pure ((if coin k then na else nb) :: l, k')
          | false, false => none

/-- The output-node loop of `crossover` (`mod.rs:144-152`): one coin per
output slot, picking `a.node_genes[a.len - outputs + i]` on `true` and the
analogous node of `b` on `false`; `none` models the `unwrap` panic. -/
def pickOutputNodes (a b : Genome) (coin : Nat → Bool) :
    List Nat → Nat → Option (List NodeGene × Nat)
  | [], k => some ([], k)
  | i :: rest, k => do
      let node ←
        if coin k then a.node_genes.get? (a.node_genes.length - a.outputs + i)
        else b.node_genes.get? (b.node_genes.length - b.outputs + i)
      let (l, k') ← pickOutputNodes a b coin rest (k + 1)
      pure (node :: l, k')

/-- Lookup in an association list of innovation flags (the model of
`HashMap::get`). -/
def lookupFlag : List (Nat × Bool) → Nat → Option Bool
  | [], _ => none
  | p :: rest, n => if p.1 == n then some p.2 else lookupFlag rest n

/-- One step of building the occurrence map shared by `crossover`
(`is_gene_common`, `mod.rs:155-183`) and `are_genomes_related`
(`disjoint_map`, `speciation.rs:135-146`): the flag of a key ends up `true`
exactly when the key was seen at least twice.  (`crossover` stores this flag
directly; `speciation.rs` stores its negation, `is_disjoint` — the embedding
keeps one polarity and negates at use sites.) -/
def markSeen (m : List (Nat × Bool)) (n : Nat) : List (Nat × Bool) :=
  match lookupFlag m n with
  | none => m ++ [(n, false)]
  | some false => m.map (fun p => if p.1 == n then (n, true) else p)
  | some true => m

/-- The occurrence map of a list of innovation numbers, keys in first-seen
order (a `HashMap` iterates in unspecified order; the theorems quantify over
the genome lists, so insertion order is a faithful instantiation). -/
def occurrenceFlags (l : List Nat) : List (Nat × Bool) :=
  l.foldl markSeen []

/-- The innovation numbers of a connection list, in order. -/
def innovationsOf (conns : List ConnectionGene) : List Nat :=
  conns.map (fun c => c.innovation)

/-- The per-innovation pick of `crossover` (`mod.rs:185-208`): a common gene
is taken from a uniformly chosen parent (one coin); an unmatched gene is
taken from parent A only when `fitness_a > fitness_b` and from parent B only
when `fitness_a <= fitness_b` — no coin is consumed and no `EPSILON`
tolerance is involved. -/
def pickConnForInnovation (a b : Genome) (fa fb : Rat) (coin : Nat → Bool)
    (k inn : Nat) (common : Bool) : Option ConnectionGene × Nat :=
  let ca := a.connection_genes.find? (fun c => c.innovation == inn)
  let cb := b.connection_genes.find? (fun c => c.innovation == inn)
  if common then
    (if coin k then ca else cb, k + 1)
  else
    (match decide (fa > fb), ca.isSome with
     | true, true => ca
     | false, false => cb
     | true, false => none
     | false, true => none, k)

/-- The connection-selection loop of `crossover` over the occurrence map. -/
def connPhase (a b : Genome) (fa fb : Rat) (coin : Nat → Bool) :
    List (Nat × Bool) → Nat → List ConnectionGene
  | [], _ => []
  | (inn, common) :: rest, k =>
      let pick := pickConnForInnovation a b fa fb coin k inn common
      pick.1.toList ++ connPhase a b fa fb coin rest pick.2

/-- The comparator of the final `sort_by` of `crossover` (`mod.rs:215-221`):
by `from`, ties by `to`. -/
def connLe (x y : ConnectionGene) : Bool :=
  if x.fromIdx == y.fromIdx then x.toIdx ≤ y.toIdx else x.fromIdx < y.fromIdx

/-- Insertion step of the sort modelling `Vec::sort_by`. -/
def insertConn (c : ConnectionGene) : List ConnectionGene → List ConnectionGene
  | [] => [c]
  | d :: rest => if connLe c d then c :: d :: rest else d :: insertConn c rest

/-- Insertion sort modelling the final `sort_by`; the claims depend only on
the multiset of genes, which any sort preserves. -/
def sortConns (l : List ConnectionGene) : List ConnectionGene :=
  l.foldr insertConn []

/-- `Genome::crossover` (`mod.rs:69-224`).  `none` models the panics: parents
with different input or output counts, the `usize` underflow of
`node_count - outputs`, and the node-pick panics.  `coin` is the stream of
`random::<f64>() < 0.5` outcomes (`true` selects parent A), `nd` the single
`random::<usize>()` draw. -/
def crossover (a : Genome) (fa : Rat) (b : Genome) (fb : Rat)
    (coin : Nat → Bool) (nd : Nat) : Option Genome :=
  if a.inputs != b.inputs || a.outputs != b.outputs then none
  else
    let node_count := nodeCountTarget a.node_genes.length b.node_genes.length fa fb nd
    if node_count < a.outputs then none
    else do
      let inputNodes ← (List.range a.inputs).mapM (fun i => a.node_genes.get? i)
      let (hiddenNodes, k1) ← pickHiddenNodes a b coin
        (List.range' a.inputs (node_count - a.outputs - a.inputs)) 0
      let (outputNodes, k2) ← pickOutputNodes a b coin (List.range a.outputs) k1
      let conns := connPhase a b fa fb coin
        (occurrenceFlags (innovationsOf (a.connection_genes ++ b.connection_genes))) k2
      pure ⟨a.inputs, a.outputs, sortConns conns,
        inputNodes ++ hiddenNodes ++ outputNodes⟩

/-! ### The core crate: genome bank, speciation, driver
(`core/src/neat/speciation.rs`, `core/src/neat/mod.rs`) -/

/-- Modelled from the spec: the genome record of the core crate
(`core/src/genome` is not among the sources; `speciation.rs` uses only its
`id()`, `nodes()` and `connections()` accessors, which are plain field
reads of the data model of §3). -/
structure CoreGenome where
  id : Nat
  nodes : List NodeGene
  connections : List ConnectionGene
deriving DecidableEq, Repr

/-- The configuration fields read by the embedded functions
(`core/src/neat/configuration.rs` is not among the sources; the field names
and meanings follow `speciation.rs` and §6 of the spec, including the
`coeficcient` spelling of the source). -/
structure Configuration where
  node_cost : Rat
  connection_cost : Rat
  distance_connection_disjoint_coefficient : Rat
  distance_connection_weight_coeficcient : Rat
  distance_connection_disabled_coefficient : Rat
  distance_node_bias_coefficient : Rat
  distance_node_activation_coefficient : Rat
  distance_node_aggregation_coefficient : Rat
  compatibility_threshold : Rat
deriving DecidableEq, Repr

/-- Classify the distinct innovation numbers of two connection lists into
disjoint connections and common pairs (`speciation.rs:148-174`); `none`
models the `unwrap` panics of the two `find` calls. -/
def splitConnections (a b : List ConnectionGene) :
    List (Nat × Bool) →
      Option (List ConnectionGene × List (ConnectionGene × ConnectionGene))
  | [] => some ([], [])
  | (inn, common) :: rest => do
      let (dis, com) ← splitConnections a b rest
      if common then do
        let ca ← a.find? (fun c => c.innovation == inn)
        let cb ← b.find? (fun c => c.innovation == inn)
        pure (dis, (ca, cb) :: com)
      else do
        let c ← (a ++ b).find? (fun c => c.innovation == inn)
        pure (c :: dis, com)

/-- The contribution of one common connection pair to the distance
(`speciation.rs:179-193`): the disabled-flag mismatch term plus the absolute
weight difference term. -/
def commonPairDistance (cfg : Configuration)
    (p : ConnectionGene × ConnectionGene) : Rat :=
  (if p.1.disabled != p.2.disabled
    then cfg.distance_connection_disabled_coefficient else 0)
    + abs (p.1.weight - p.2.weight) * cfg.distance_connection_weight_coeficcient

/-- The contribution of one positionally aligned node pair to the distance
(`speciation.rs:195-214`). -/
def nodePairDistance (cfg : Configuration) (p : NodeGene × NodeGene) : Rat :=
  (if p.1.activation != p.2.activation
    then cfg.distance_node_activation_coefficient else 0)
    + (if p.1.aggregation != p.2.aggregation
        then cfg.distance_node_aggregation_coefficient else 0)
    + abs (p.1.bias - p.2.bias) * cfg.distance_node_bias_coefficient

/-- `GenomeBank::are_genomes_related` (`speciation.rs:104-220`).  The source
computes `distance += (factor_sum + disjoint_factor) / max_connection_genes`
in `f64` with no special case for `max_connection_genes == 0`: in that case
both factor sums are the empty sum, exactly `0.0`, the quotient `0.0 / 0.0`
is IEEE NaN, the NaN propagates through the addition, and
`NaN <= compatibility_threshold` is `false` — so the source returns `false`.
The embedding carries that case explicitly; all other arithmetic is exact.
`none` models the `unwrap` panics of the classification. -/
def are_genomes_related (cfg : Configuration) (a b : CoreGenome) :
    Option Bool := do
  let (disjointConnections, commonConnections) ←
    splitConnections a.connections b.connections
      (occurrenceFlags (innovationsOf a.connections ++ innovationsOf b.connections))
  let max_connection_genes := max a.connections.length b.connections.length
  let disjoint_factor := (disjointConnections.length : Rat)
    * cfg.distance_connection_disjoint_coefficient
  let connections_difference_factor :=
    (commonConnections.map (commonPairDistance cfg)).sum
  let nodes_difference_factor :=
    ((a.nodes.zip b.nodes).map (nodePairDistance cfg)).sum
  if max_connection_genes == 0 then
    pure false
  else
    pure (decide (nodes_difference_factor
      + (connections_difference_factor + disjoint_factor)
        / (max_connection_genes : Rat)
      ≤ cfg.compatibility_threshold))

/-- `HashMap::get` on the genome map. -/
def lookupGenome (genomes : List (Nat × CoreGenome)) (i : Nat) :
    Option CoreGenome :=
  (genomes.find? (fun p => p.1 == i)).map (fun p => p.2)

/-- `HashMap::get` on the fitness map. -/
def lookupRat (l : List (Nat × Rat)) (i : Nat) : Option Rat :=
  (l.find? (fun p => p.1 == i)).map (fun p => p.2)

/-- The species-search closure of `speciate` (`speciation.rs:78-94`): walk
the species, look up the genome of the first member of each, and return the
first species whose first member is related to `g`; a species whose first
member cannot be looked up is skipped (`false` branch).  `none` models a
panic inside `are_genomes_related`. -/
def firstRelatedSpecies (cfg : Configuration)
    (genomes : List (Nat × CoreGenome)) (g : CoreGenome) :
    List (Nat × List Nat) → Option (Option Nat)
  | [] => some none
  | (sid, members) :: rest =>
      match members.head?.bind (lookupGenome genomes) with
      | none => firstRelatedSpecies cfg genomes g rest
      | some other =>
          match are_genomes_related cfg g other with
          | none => none
          | some true => some (some sid)
          | some false => firstRelatedSpecies cfg genomes g rest

/-- `self.species.get_mut(&species_id).unwrap().push(genome_id)`. -/
def pushMember (species : List (Nat × List Nat)) (sid gid : Nat) :
    List (Nat × List Nat) :=
  species.map (fun p => if p.1 == sid then (p.1, p.2 ++ [gid]) else p)

/-- The genome loop of `GenomeBank::speciate` (`speciation.rs:74-102`): each
genome joins the first related species or founds a new one keyed
`species.len()`. -/
def speciateLoop (cfg : Configuration) (genomes : List (Nat × CoreGenome)) :
    List (Nat × CoreGenome) → List (Nat × List Nat) →
      Option (List (Nat × List Nat))
  | [], species => some species
  | (gid, g) :: rest, species => do
      let found ← firstRelatedSpecies cfg genomes g species
      match found with
      | some sid => speciateLoop cfg genomes rest (pushMember species sid gid)
      | none =>
          speciateLoop cfg genomes rest (species ++ [(species.length, [gid])])

/-- `GenomeBank::speciate`: clear the species map, then classify every
current genome (the `HashMap` iteration order is unspecified; the theorems
quantify over the list, covering every order). -/
def speciate (cfg : Configuration) (genomes : List (Nat × CoreGenome)) :
    Option (List (Nat × List Nat)) :=
  speciateLoop cfg genomes genomes []

/-- `GenomeBank::species_size_for` (`speciation.rs:222-228`); `none` models
the `unwrap` panic when no species contains the genome. -/
def species_size_for (species : List (Nat × List Nat)) (gid : Nat) :
    Option Nat :=
  (species.find? (fun p => p.2.contains gid)).map (fun p => p.2.length)

/-- `GenomeBank::adjusted_fitnesses` (`speciation.rs:230-262`).  The source
computes `genome_connection_cost = genome.nodes().len() * connection_cost`
— `nodes()`, not `connections()` — and the embedding reproduces that.
`none` models the `expect` on a missing fitness and the `unwrap` on a
missing species. -/
def adjusted_fitnesses (cfg : Configuration)
    (genomes : List (Nat × CoreGenome)) (fitnesses : List (Nat × Rat))
    (species : List (Nat × List Nat)) : Option (List (Nat × Rat)) :=
  genomes.mapM (fun p => do
    let fitness ← lookupRat fitnesses p.1
    let genome_node_cost := (p.2.nodes.length : Rat) * cfg.node_cost
    let genome_connection_cost := (p.2.nodes.length : Rat) * cfg.connection_cost
    let related ← species.find? (fun s => s.2.contains p.1)
    pure (p.1, (fitness - genome_node_cost - genome_connection_cost)
      / (related.2.length : Rat)))

/-- The adjusted fitness the claim states:
`(raw - node_cost * |nodes| - connection_cost * |connections|) / |species|`. -/
def claimAdjustedFitness (cfg : Configuration) (g : CoreGenome) (raw : Rat)
    (speciesSize : Nat) : Rat :=
  (raw - cfg.node_cost * (g.nodes.length : Rat)
    - cfg.connection_cost * (g.connections.length : Rat)) / (speciesSize : Rat)

/-- `survived_count` of `NEAT::start` (`core/src/neat/mod.rs:87-89`):
`(len * (survival_ratio * 100.).round() as usize).div_euclid(100)`.  For a
fraction in `[0, 1]` the `f64` rounding is round-half-up, which is `round`
on rationals. -/
def survivedCount (len : Nat) (r : Rat) : Nat :=
  (len * (round (r * 100)).toNat) / 100

/-- `elites_count` of `NEAT::start` (`core/src/neat/mod.rs:91-92`), the same
percent computation applied to `elitism`. -/
def elitesCount (len : Nat) (e : Rat) : Nat :=
  (len * (round (e * 100)).toNat) / 100

/-- The fold of `NEAT::get_best` (`core/src/neat/mod.rs:247-256`):
accumulator starts at genome id `0` with fitness `0.0` and is replaced only
on a strictly greater fitness. -/
def getBestFold (fitnesses : List (Nat × Rat)) : Nat × Rat :=
  fitnesses.foldl (fun best p => if p.2 > best.2 then p else best) (0, 0)

/-- `NEAT::get_best` (`core/src/neat/mod.rs:246-261`): fold the fitness map,
then look the winning id up among the current genomes; `none` models the
`unwrap` panic of that lookup. -/
def get_best (genomes : List (Nat × CoreGenome))
    (fitnesses : List (Nat × Rat)) : Option (Nat × CoreGenome × Rat) :=
  let best := getBestFold fitnesses
  (lookupGenome genomes best.1).map (fun g => (best.1, g, best.2))

/-! ### Claim-side compatibility distance (C7)

The quantities of the claimed formula
`δ = (c_disjoint·D + c_weight·W + c_disabled·M) / N + node terms`,
written from the claim's words: `D` counts innovation numbers present in
exactly one genome, the matching terms range over innovations present in
both, and `N = max(|A_conn|, |B_conn|)`, taken as `1` when both lists are
empty. -/

/-- The distinct innovation numbers of two connection lists. -/
def allInnovations (a b : List ConnectionGene) : List Nat :=
  (occurrenceFlags (innovationsOf a ++ innovationsOf b)).map (fun p => p.1)

/-- `D`: innovation numbers present in exactly one of the two lists. -/
def claimDisjointCount (a b : List ConnectionGene) : Nat :=
  ((allInnovations a b).filter (fun n =>
    (innovationsOf a).contains n != (innovationsOf b).contains n)).length

/-- The innovation numbers present in both lists. -/
def claimMatchingKeys (a b : List ConnectionGene) : List Nat :=
  (allInnovations a b).filter (fun n =>
    (innovationsOf a).contains n && (innovationsOf b).contains n)

/-- `W`: summed absolute weight difference over matching innovations. -/
def claimWeightSum (a b : List ConnectionGene) : Rat :=
  ((claimMatchingKeys a b).map (fun n =>
    match a.find? (fun c => c.innovation == n),
        b.find? (fun c => c.innovation == n) with
    | some ca, some cb => abs (ca.weight - cb.weight)
    | _, _ => 0)).sum

/-- `M`: matching innovations whose `disabled` flags differ. -/
def claimFlippedCount (a b : List ConnectionGene) : Nat :=
  ((claimMatchingKeys a b).filter (fun n =>
    match a.find? (fun c => c.innovation == n),
        b.find? (fun c => c.innovation == n) with
    | some ca, some cb => ca.disabled != cb.disabled
    | _, _ => false)).length

/-- The claimed compatibility distance `δ`. -/
def claimDelta (cfg : Configuration) (a b : CoreGenome) : Rat :=
  let N : Rat :=
    if max a.connections.length b.connections.length = 0 then 1
    else (max a.connections.length b.connections.length : Rat)
  (cfg.distance_connection_disjoint_coefficient
      * (claimDisjointCount a.connections b.connections : Rat)
    + cfg.distance_connection_weight_coeficcient
      * claimWeightSum a.connections b.connections
    + cfg.distance_connection_disabled_coefficient
      * (claimFlippedCount a.connections b.connections : Rat)) / N
    + ((a.nodes.zip b.nodes).map (nodePairDistance cfg)).sum

/-! ### Concrete instances used by counterexamples and witnesses -/

/-- Shorthand: a node gene of the given kind with zeroed parameters. -/
def mkNode (k : NodeKind) : NodeGene := ⟨k, 0, 0, 0⟩

/-- Shorthand: an enabled connection gene with innovation number 0. -/
def mkConn (f t : Nat) : ConnectionGene := ⟨f, t, 0, false, 0⟩

/-- The chain `0 → 1 → 2` (input, hidden, output): node 2 is reachable from
node 0 along enabled connections, but only through a path of length 2. -/
def gChain : Genome :=
  ⟨1, 1, [mkConn 0 1, mkConn 1 2],
    [mkNode NodeKind.Input, mkNode NodeKind.Hidden, mkNode NodeKind.Output]⟩

/-- Two inputs and one output, no connections; the extras
`[0 → 1, 1 → 0]` put a cycle through the two input nodes. -/
def gInputCycle : Genome :=
  ⟨2, 1, [],
    [mkNode NodeKind.Input, mkNode NodeKind.Input, mkNode NodeKind.Output]⟩

/-- A genome violating data-model invariant 2: the enabled connection
`1 → 0` targets the `Input` node 0. -/
def gIntoInput : Genome :=
  ⟨1, 1, [mkConn 1 0],
    [mkNode NodeKind.Input, mkNode NodeKind.Hidden, mkNode NodeKind.Output]⟩

/-- The six-node acyclic test genome of the source's `get_node_order` test
(`mod.rs:583-603`). -/
def gDag : Genome :=
  ⟨2, 1,
    [mkConn 0 2, mkConn 1 3, mkConn 1 4, mkConn 1 5, mkConn 3 2, mkConn 4 3,
      mkConn 5 4],
    [mkNode NodeKind.Input, mkNode NodeKind.Input, mkNode NodeKind.Output,
      mkNode NodeKind.Hidden, mkNode NodeKind.Hidden, mkNode NodeKind.Hidden]⟩

/-- Crossover parent A for C5: one input, one output, one connection gene
with innovation number 10 that parent B lacks. -/
def pA5 : Genome :=
  ⟨1, 1, [⟨0, 1, 0, false, 10⟩], [mkNode NodeKind.Input, mkNode NodeKind.Output]⟩

/-- Crossover parent B for C5: same nodes as A, no connection genes. -/
def pB5 : Genome :=
  ⟨1, 1, [], [mkNode NodeKind.Input, mkNode NodeKind.Output]⟩

/-- Crossover parent A for C6: 5 nodes (1 input, 3 hidden, 1 output). -/
def pA6 : Genome :=
  ⟨1, 1, [],
    [mkNode NodeKind.Input, mkNode NodeKind.Hidden, mkNode NodeKind.Hidden,
      mkNode NodeKind.Hidden, mkNode NodeKind.Output]⟩

/-- Crossover parent B for C6: 7 nodes (1 input, 5 hidden, 1 output). -/
def pB6 : Genome :=
  ⟨1, 1, [],
    [mkNode NodeKind.Input, mkNode NodeKind.Hidden, mkNode NodeKind.Hidden,
      mkNode NodeKind.Hidden, mkNode NodeKind.Hidden, mkNode NodeKind.Hidden,
      mkNode NodeKind.Output]⟩

/-- A configuration with all distance coefficients 1, threshold 3, unit
connection cost and zero node cost. -/
def cfgUnit : Configuration := ⟨0, 1, 1, 1, 1, 1, 1, 1, 3⟩

/-- A connectionless core genome with a single node (id 1). -/
def cgEmptyA : CoreGenome := ⟨1, [mkNode NodeKind.Output], []⟩

/-- A second connectionless core genome with the same single node (id 2). -/
def cgEmptyB : CoreGenome := ⟨2, [mkNode NodeKind.Output], []⟩

/-- Core genome (id 11) with one node and one connection of weight 0,
innovation 0, for the C7 witness. -/
def cgConnA : CoreGenome :=
  ⟨11, [mkNode NodeKind.Output], [⟨0, 1, 0, false, 0⟩]⟩

/-- Core genome (id 12) with the same node and a matching connection of
weight 2, for the C7 witness. -/
def cgConnB : CoreGenome :=
  ⟨12, [mkNode NodeKind.Output], [⟨0, 1, 2, false, 0⟩]⟩

/-- Core genome with 2 nodes and 1 connection (id 7), for C1. -/
def cgTwoNodes : CoreGenome :=
  ⟨7, [mkNode NodeKind.Input, mkNode NodeKind.Output], [mkConn 0 1]⟩

/-- A genome map holding only `cgTwoNodes`. -/
def genomesC1 : List (Nat × CoreGenome) := [(7, cgTwoNodes)]

/-- Raw fitness 10 for genome 7. -/
def fitnessesC1 : List (Nat × Rat) := [(7, 10)]

/-- A single species containing genome 7. -/
def speciesC1 : List (Nat × List Nat) := [(0, [7])]

/-- A fitness map with a single, strictly negative entry. -/
def fitnessesC9 : List (Nat × Rat) := [(5, -1)]

/-- A genome map whose only id is 5 (no genome with id 0). -/
def genomesC9 : List (Nat × CoreGenome) := [(5, cgEmptyA)]

/-- A two-genome map with identical genomes, ids 3 and 4, for the C10
witness. -/
def genomesC10 : List (Nat × CoreGenome) := [(3, cgTwoNodes), (4, cgTwoNodes)]

/-- The loop invariant of `get_node_order`'s visited list: no duplicates,
indices in range, and every visited node is either an `Input` (seeded) or has
all its predecessors visited strictly earlier. -/
def KahnInv (conns : List ConnectionGene) (nodes : List NodeGene)
    (visited : List Nat) : Prop :=
  visited.Nodup ∧ (∀ v ∈ visited, v < nodes.length) ∧
    ∀ v ∈ visited,
      (∃ nd, nodes.get? v = some nd ∧ nd.kind = NodeKind.Input) ∨
        ∀ c ∈ conns, c.toIdx = v →
          c.fromIdx ∈ visited ∧ visited.indexOf c.fromIdx < visited.indexOf v

/-! ## Theorems -/

/-- The successor filter of `is_projecting` tests `!visited_nodes.contains(&i)`
for the node `i` that was just inserted into `visited_nodes`, so it never
passes: the queue starting at `[source]` empties after one pop and the
search degenerates to the direct-edge test. -/
theorem is_projecting_eq_directly (g : Genome) (s t : Nat) :
    g.is_projecting s t = g.is_projecting_directly s t := by
  show isProjectingLoop g t (g.node_genes.length + 1) [] [s] = _
  rw [isProjectingLoop]
  by_cases h : g.is_projecting_directly s t = true
  · simp [h]
  · simp only [Bool.not_eq_true] at h
    simp [h, isProjectingLoop]

/-- C2: `is_projecting(src, dst)` is claimed to return true iff `dst` is
reachable from `src` along a path of one or more enabled connections.  On
the chain `0 → 1 → 2` the node 2 is reachable from 0, yet the source
returns `false`: its successor filter compares the freshly visited node
against itself, so the search never advances past direct edges. -/
theorem c2_is_projecting_drops_reachability :
    gChain.is_projecting 0 2 = false ∧
      reachesIn (edgesOf gChain.enabled) gChain.node_genes.length 0 2 = true ∧
      gChain.is_projecting 0 1 = true := by
  refine ⟨by decide, by decide, by decide⟩

/-- C1: `adjusted_fitnesses` is claimed to compute
`(raw - node_cost·|nodes| - connection_cost·|connections|) / |species|`.
On a genome with 2 nodes, 1 connection, raw fitness 10, `node_cost = 0`,
`connection_cost = 1` and a singleton species, the claimed value is 9, but
the source computes `genome.nodes().len() * connection_cost`
(`speciation.rs:246`) and returns 8. -/
theorem c1_adjusted_fitness_uses_node_count :
    adjusted_fitnesses cfgUnit genomesC1 fitnessesC1 speciesC1 = some [(7, 8)]
      ∧ claimAdjustedFitness cfgUnit cgTwoNodes 10 1 = 9 := by
  constructor
  · simp only [adjusted_fitnesses, genomesC1, fitnessesC1, speciesC1,
      List.mapM_cons, List.mapM_nil, lookupRat, List.find?, cfgUnit,
      cgTwoNodes, mkNode, mkConn]
    norm_num
  · norm_num [claimAdjustedFitness, cfgUnit, cgTwoNodes, mkNode, mkConn]

/-- C8 counterexample: with population 3 and `survival_ratio = 1/3` the
claim demands `⌊3 · (1/3)⌋ = 1` survivors, but the source computes
`(3 * round(100/3)) div 100 = (3 * 33) div 100 = 0`. -/
theorem c8_counterexample :
    survivedCount 3 (1 / 3) = 0 ∧ Nat.floor ((3 : Rat) * (1 / 3)) = 1 := by
  constructor
  · show 3 * (round ((1 : Rat) / 3 * 100)).toNat / 100 = 0
    have h33 : round ((1 : Rat) / 3 * 100) = 33 := by norm_num [round_eq]
    rw [h33]
    decide
  · norm_num

/-- C8 (amended): the survivor and elite counts are
`(pop * round(100·r)) div 100`, which agrees with the claimed
`⌊pop · r⌋` exactly when the ratio is a whole number of percent
(`r = k/100`). -/
theorem c8_percent_counts (len k : Nat) :
    survivedCount len ((k : Rat) / 100) = Nat.floor ((len : Rat) * ((k : Rat) / 100))
      ∧ elitesCount len ((k : Rat) / 100) = Nat.floor ((len : Rat) * ((k : Rat) / 100)) := by
  have hr : ((k : Rat) / 100) * 100 = (k : Rat) := by
    field_simp
  have hround : (round (((k : Rat) / 100) * 100)).toNat = k := by
    rw [hr, round_natCast, Int.toNat_natCast]
  have hfloor : Nat.floor ((len : Rat) * ((k : Rat) / 100)) = len * k / 100 := by
    have : (len : Rat) * ((k : Rat) / 100) = ((len * k : Nat) : Rat) / ((100 : Nat) : Rat) := by
      push_cast
      ring
    rw [this, Nat.floor_div_nat, Nat.floor_natCast]
  constructor
  · show len * (round (((k : Rat) / 100) * 100)).toNat / 100 = _
    rw [hround, hfloor]
  · show len * (round (((k : Rat) / 100) * 100)).toNat / 100 = _
    rw [hround, hfloor]

/-- The `get_best` fold never leaves its initial accumulator when every
fitness is at most 0. -/
theorem getBestFold_of_nonpos (fitnesses : List (Nat × Rat))
    (h : ∀ p ∈ fitnesses, p.2 ≤ 0) : getBestFold fitnesses = (0, 0) := by
  show fitnesses.foldl (fun best p => if p.2 > best.2 then p else best) (0, 0) = (0, 0)
  induction fitnesses with
  | nil => rfl
  | cons p rest ih =>
      have hp : p.2 ≤ 0 := h p (by simp)
      have hstep : (if p.2 > (0 : Rat) then p else ((0 : Nat), (0 : Rat))) = (0, 0) := by
        have : ¬ p.2 > (0 : Rat) := not_lt.mpr hp
        simp [this]
      simp only [List.foldl_cons]
      rw [hstep]
      exact ih (fun q hq => h q (by simp [hq]))

/-- C9: `get_best` folds the fitness map starting from the accumulator
`(id 0, fitness 0.0)` with a strict comparison, so when every recorded raw
fitness is at most 0.0 the fold ends at `(0, 0.0)` — the reported fitness is
0.0 rather than the maximum — and the subsequent `unwrap` of the genome
lookup panics exactly when no current genome has id 0. -/
theorem c9_get_best_nonpositive (genomes : List (Nat × CoreGenome))
    (fitnesses : List (Nat × Rat)) (h : ∀ p ∈ fitnesses, p.2 ≤ 0) :
    getBestFold fitnesses = (0, 0)
      ∧ (lookupGenome genomes 0 = none → get_best genomes fitnesses = none)
      ∧ ∀ g, lookupGenome genomes 0 = some g →
          get_best genomes fitnesses = some (0, g, 0) := by
  have hfold := getBestFold_of_nonpos fitnesses h
  refine ⟨hfold, ?_, ?_⟩
  · intro hnone
    show (lookupGenome genomes (getBestFold fitnesses).1).map _ = none
    rw [hfold]
    simpa using hnone
  · intro g hg
    show (lookupGenome genomes (getBestFold fitnesses).1).map
      (fun x => ((getBestFold fitnesses).1, x, (getBestFold fitnesses).2)) = _
    rw [hfold]
    simp [hg]

/-- C9 witness: with the single fitness entry `(5, −1)` and no genome of
id 0, the fold returns `(0, 0)` and the lookup panics. -/
theorem c9_witness :
    getBestFold fitnessesC9 = (0, 0) ∧ get_best genomesC9 fitnessesC9 = none := by
  have h := c9_get_best_nonpositive genomesC9 fitnessesC9 (by decide)
  exact ⟨h.1, h.2.1 (by decide)⟩

/-! ### Correctness of `get_node_order` (Kahn layering) -/

theorem mem_readyNodes {conns : List ConnectionGene} {nodes : List NodeGene}
    {visited : List Nat} {i : Nat} :
    i ∈ readyNodes conns nodes visited ↔
      i < nodes.length ∧ i ∉ visited ∧
        ∀ c ∈ conns, c.toIdx = i → c.fromIdx ∈ visited := by
  simp only [readyNodes, List.mem_filter, List.mem_range, Bool.and_eq_true,
    Bool.not_eq_true', List.all_eq_true, List.mem_map, List.mem_filter,
    beq_iff_eq]
  constructor
  · rintro ⟨hi, hnv, hall⟩
    refine ⟨hi, ?_, fun c hc hto => ?_⟩
    · simpa [List.elem_iff] using hnv
    · simpa [List.elem_iff] using hall c.fromIdx ⟨c, ⟨hc, hto⟩, rfl⟩
  · rintro ⟨hi, hnv, hall⟩
    refine ⟨hi, ?_, ?_⟩
    · simpa [List.elem_iff] using hnv
    · rintro j ⟨c, ⟨hc, hto⟩, rfl⟩
      simpa [List.elem_iff] using hall c hc hto

theorem readyNodes_nodup (conns : List ConnectionGene) (nodes : List NodeGene)
    (visited : List Nat) : (readyNodes conns nodes visited).Nodup :=
  (List.nodup_range nodes.length).filter _

theorem nodup_bounded_length_le {l : List Nat} {n : Nat} (hnd : l.Nodup)
    (hb : ∀ v ∈ l, v < n) : l.length ≤ n := by
  have hcard : l.toFinset.card = l.length := List.toFinset_card_of_nodup hnd
  have hsub : l.toFinset ⊆ Finset.range n := by
    intro x hx
    exact Finset.mem_range.mpr (hb x (List.mem_toFinset.mp hx))
  have := Finset.card_le_card hsub
  rw [hcard, Finset.card_range] at this
  exact this

theorem kahnInv_seeds (conns : List ConnectionGene) (nodes : List NodeGene) :
    KahnInv conns nodes (inputSeeds nodes) := by
  refine ⟨(List.nodup_range nodes.length).filter _, ?_, ?_⟩
  · intro v hv
    exact List.mem_range.mp (List.mem_of_mem_filter hv)
  · intro v hv
    left
    have hpred := List.of_mem_filter hv
    revert hpred
    cases hget : nodes.get? v with
    | none => intro hpred; simp at hpred
    | some nd =>
        intro hpred
        simp only [beq_iff_eq] at hpred
        exact ⟨nd, rfl, hpred⟩

theorem kahnInv_append {conns : List ConnectionGene} {nodes : List NodeGene}
    {visited : List Nat} (h : KahnInv conns nodes visited) :
    KahnInv conns nodes (visited ++ readyNodes conns nodes visited) := by
  obtain ⟨hnd, hb, hinv⟩ := h
  have hdisj : List.Disjoint visited (readyNodes conns nodes visited) := by
    intro x hx hx'
    exact (mem_readyNodes.mp hx').2.1 hx
  refine ⟨List.Nodup.append hnd (readyNodes_nodup conns nodes visited) hdisj, ?_, ?_⟩
  · intro v hv
    rcases List.mem_append.mp hv with hv | hv
    · exact hb v hv
    · exact (mem_readyNodes.mp hv).1
  · intro v hv
    rcases List.mem_append.mp hv with hv | hv
    · rcases hinv v hv with hin | hpred
      · exact Or.inl hin
      · right
        intro c hc hto
        obtain ⟨hmem, hidx⟩ := hpred c hc hto
        refine ⟨List.mem_append.mpr (Or.inl hmem), ?_⟩
        rw [List.indexOf_append_of_mem hmem, List.indexOf_append_of_mem hv]
        exact hidx
    · right
      intro c hc hto
      obtain ⟨_, hnv, hall⟩ := mem_readyNodes.mp hv
      have hmem := hall c hc hto
      refine ⟨List.mem_append.mpr (Or.inl hmem), ?_⟩
      rw [List.indexOf_append_of_mem hmem, List.indexOf_append_of_not_mem hnv]
      calc List.indexOf c.fromIdx visited < visited.length :=
            List.indexOf_lt_length.mpr hmem
        _ ≤ visited.length + List.indexOf v (readyNodes conns nodes visited) :=
            Nat.le_add_right _ _

theorem kahnLoop_inv {conns : List ConnectionGene} {nodes : List NodeGene}
    (fuel : Nat) {visited : List Nat} (h : KahnInv conns nodes visited) :
    KahnInv conns nodes (kahnLoop conns nodes fuel visited) := by
  induction fuel generalizing visited with
  | zero => exact h
  | succ fuel ih =>
      rw [kahnLoop]
      by_cases hemp : (readyNodes conns nodes visited).isEmpty
      · simpa [hemp] using h
      · simpa [hemp] using ih (kahnInv_append h)

theorem kahnLoop_fixpoint {conns : List ConnectionGene} {nodes : List NodeGene}
    (fuel : Nat) {visited : List Nat} (hnd : visited.Nodup)
    (hb : ∀ v ∈ visited, v < nodes.length)
    (hfuel : nodes.length + 1 ≤ fuel + visited.length) :
    readyNodes conns nodes (kahnLoop conns nodes fuel visited) = [] := by
  induction fuel generalizing visited with
  | zero =>
      exfalso
      have := nodup_bounded_length_le hnd hb
      omega
  | succ fuel ih =>
      rw [kahnLoop]
      by_cases hemp : (readyNodes conns nodes visited).isEmpty = true
      · simpa [hemp] using List.isEmpty_iff.mp hemp
      · have hne : readyNodes conns nodes visited ≠ [] := by
          intro h
          exact hemp (by simp [h])
        have hlen : 1 ≤ (readyNodes conns nodes visited).length :=
          Nat.one_le_iff_ne_zero.mpr
            (fun h => hne (List.eq_nil_of_length_eq_zero h))
        have hdisj : List.Disjoint visited (readyNodes conns nodes visited) := by
          intro x hx hx'
          exact (mem_readyNodes.mp hx').2.1 hx
        have hnd' : (visited ++ readyNodes conns nodes visited).Nodup :=
          List.Nodup.append hnd (readyNodes_nodup conns nodes visited) hdisj
        have hb' : ∀ v ∈ visited ++ readyNodes conns nodes visited,
            v < nodes.length := by
          intro v hv
          rcases List.mem_append.mp hv with hv | hv
          · exact hb v hv
          · exact (mem_readyNodes.mp hv).1
        have hfuel' : nodes.length + 1 ≤
            fuel + (visited ++ readyNodes conns nodes visited).length := by
          rw [List.length_append]
          omega
        simpa [hemp] using ih hnd' hb' hfuel'

theorem reachesIn_mono {E : List (Nat × Nat)} {d d' u v : Nat} (h : d ≤ d')
    (hr : reachesIn E d u v = true) : reachesIn E d' u v = true := by
  induction d generalizing d' u with
  | zero => simp [reachesIn] at hr
  | succ d ih =>
      obtain ⟨d'', rfl⟩ : ∃ d'', d' = d'' + 1 :=
        ⟨d' - 1, by omega⟩
      rw [reachesIn] at hr ⊢
      rw [List.any_eq_true] at hr ⊢
      obtain ⟨e, he, hcond⟩ := hr
      refine ⟨e, he, ?_⟩
      simp only [Bool.and_eq_true, Bool.or_eq_true] at hcond ⊢
      refine ⟨hcond.1, ?_⟩
      rcases hcond.2 with hdir | hrec
      · exact Or.inl hdir
      · exact Or.inr (ih (by omega) hrec)

theorem edgesOf_mem {conns : List ConnectionGene} {e : Nat × Nat} :
    e ∈ edgesOf conns ↔ ∃ c ∈ conns, c.fromIdx = e.1 ∧ c.toIdx = e.2 := by
  simp only [edgesOf, List.mem_map]
  constructor
  · rintro ⟨c, hc, rfl⟩
    exact ⟨c, hc, rfl, rfl⟩
  · rintro ⟨c, hc, h1, h2⟩
    exact ⟨c, hc, by rw [h1, h2]⟩

theorem kahnInv_reach {conns : List ConnectionGene} {nodes : List NodeGene}
    {visited : List Nat} (hinv : KahnInv conns nodes visited)
    (hto : ∀ c ∈ conns, ∀ nd, nodes.get? c.toIdx = some nd →
      nd.kind ≠ NodeKind.Input) :
    ∀ fuel u v, reachesIn (edgesOf conns) fuel u v = true → v ∈ visited →
      u ∈ visited ∧ visited.indexOf u < visited.indexOf v := by
  obtain ⟨hnd, hb, hstep⟩ := hinv
  have hedge : ∀ c ∈ conns, c.toIdx ∈ visited →
      c.fromIdx ∈ visited ∧
        visited.indexOf c.fromIdx < visited.indexOf c.toIdx := by
    intro c hc hmem
    rcases hstep c.toIdx hmem with hin | hpred
    · obtain ⟨nd, hget, hkind⟩ := hin
      exact absurd hkind (hto c hc nd hget)
    · exact hpred c hc rfl
  intro fuel
  induction fuel with
  | zero => intro u v hr; simp [reachesIn] at hr
  | succ fuel ih =>
      intro u v hr hv
      rw [reachesIn, List.any_eq_true] at hr
      obtain ⟨e, he, hcond⟩ := hr
      simp only [Bool.and_eq_true, Bool.or_eq_true, beq_iff_eq] at hcond
      obtain ⟨rfl, hcase⟩ := hcond
      obtain ⟨c, hc, hcf, hct⟩ := edgesOf_mem.mp he
      rcases hcase with rfl | hrec
      · have := hedge c hc (by rw [hct]; exact hv)
        rw [hcf, hct] at this
        exact this
      · obtain ⟨hwmem, hwidx⟩ := ih e.2 v hrec hv
        have := hedge c hc (by rw [hct]; exact hwmem)
        rw [hcf, hct] at this
        exact ⟨this.1, lt_trans this.2 hwidx⟩

theorem kahn_no_cycle_complete {conns : List ConnectionGene}
    {nodes : List NodeGene} {R : List Nat}
    (hval : ∀ c ∈ conns, c.fromIdx < nodes.length)
    (hfix : readyNodes conns nodes R = [])
    (hacyc : hasCycle nodes.length (edgesOf conns) = false) :
    ∀ i < nodes.length, i ∈ R := by
  by_contra hcon
  push_neg at hcon
  obtain ⟨i0, hi0, hi0R⟩ := hcon
  have hstep : ∀ u, u < nodes.length → u ∉ R →
      ∃ w, w < nodes.length ∧ w ∉ R ∧ (w, u) ∈ edgesOf conns := by
    intro u hu hunR
    have hnotready : u ∉ readyNodes conns nodes R := by
      rw [hfix]; exact List.not_mem_nil u
    rw [mem_readyNodes] at hnotready
    push_neg at hnotready
    obtain ⟨c, hc, hcu, hcw⟩ := hnotready hu hunR
    refine ⟨c.fromIdx, hval c hc, hcw, ?_⟩
    rw [edgesOf_mem]
    exact ⟨c, hc, rfl, hcu⟩
  choose F hF1 hF2 hF3 using hstep
  let seq : Nat → {x : Nat // x < nodes.length ∧ x ∉ R} := fun k =>
    Nat.rec ⟨i0, hi0, hi0R⟩
      (fun _ prev => ⟨F prev.1 prev.2.1 prev.2.2,
        hF1 prev.1 prev.2.1 prev.2.2, hF2 prev.1 prev.2.1 prev.2.2⟩) k
  have hedge : ∀ k, ((seq (k + 1)).1, (seq k).1) ∈ edgesOf conns := by
    intro k
    exact hF3 (seq k).1 (seq k).2.1 (seq k).2.2
  have hreach : ∀ d k, 0 < d →
      reachesIn (edgesOf conns) d (seq (k + d)).1 (seq k).1 = true := by
    intro d
    induction d with
    | zero => intro k h; omega
    | succ d ih =>
        intro k _
        rw [reachesIn, List.any_eq_true]
        rcases Nat.eq_zero_or_pos d with rfl | hd
        · exact ⟨((seq (k + 1)).1, (seq k).1), hedge k, by simp⟩
        · refine ⟨((seq (k + d + 1)).1, (seq (k + d)).1), hedge (k + d), ?_⟩
          simp only [Bool.and_eq_true, Bool.or_eq_true, beq_iff_eq]
          exact ⟨by rw [Nat.add_succ], Or.inr (ih k hd)⟩
  have hmaps : ∀ k ∈ Finset.range (nodes.length + 1),
      (seq k).1 ∈ Finset.range nodes.length := by
    intro k _
    exact Finset.mem_range.mpr (seq k).2.1
  have hcard : (Finset.range nodes.length).card <
      (Finset.range (nodes.length + 1)).card := by
    simp
  obtain ⟨a, hamem, b, hbmem, hab, habeq⟩ :=
    Finset.exists_ne_map_eq_of_card_lt_of_maps_to hcard hmaps
  rcases Nat.lt_or_ge a b with hlt | hge
  · have hd : 0 < b - a := by omega
    have := hreach (b - a) a hd
    rw [show a + (b - a) = b from by omega] at this
    rw [habeq] at this
    have hle : b - a ≤ nodes.length := by
      have := Finset.mem_range.mp hbmem
      omega
    have hcyc : reachesIn (edgesOf conns) nodes.length (seq b).1 (seq b).1 = true :=
      reachesIn_mono hle this
    have : hasCycle nodes.length (edgesOf conns) = true := by
      rw [hasCycle, List.any_eq_true]
      exact ⟨(seq b).1, List.mem_range.mpr (seq b).2.1, hcyc⟩
    rw [this] at hacyc
    exact Bool.true_eq_false.mp hacyc
  · have hlt' : b < a := by omega
    have hd : 0 < a - b := by omega
    have := hreach (a - b) b hd
    rw [show b + (a - b) = a from by omega] at this
    rw [habeq] at this
    have hle : a - b ≤ nodes.length := by
      have := Finset.mem_range.mp hamem
      omega
    have hcyc : reachesIn (edgesOf conns) nodes.length (seq b).1 (seq b).1 = true :=
      reachesIn_mono hle this
    have : hasCycle nodes.length (edgesOf conns) = true := by
      rw [hasCycle, List.any_eq_true]
      exact ⟨(seq b).1, List.mem_range.mpr (seq b).2.1, hcyc⟩
    rw [this] at hacyc
    exact Bool.true_eq_false.mp hacyc

theorem nodup_bounded_full {l : List Nat} {n : Nat} (hnd : l.Nodup)
    (hb : ∀ v ∈ l, v < n) (hlen : l.length = n) : ∀ i < n, i ∈ l := by
  intro i hi
  have hcard : l.toFinset.card = n := by
    rw [List.toFinset_card_of_nodup hnd, hlen]
  have hsub : l.toFinset ⊆ Finset.range n := by
    intro x hx
    exact Finset.mem_range.mpr (hb x (List.mem_toFinset.mp hx))
  have heq : l.toFinset = Finset.range n :=
    Finset.eq_of_subset_of_card_le hsub (by rw [hcard, Finset.card_range])
  have : i ∈ l.toFinset := by
    rw [heq]
    exact Finset.mem_range.mpr hi
  exact List.mem_toFinset.mp this

theorem length_eq_of_full {l : List Nat} {n : Nat} (hnd : l.Nodup)
    (hb : ∀ v ∈ l, v < n) (hfull : ∀ i < n, i ∈ l) : l.length = n := by
  have hle := nodup_bounded_length_le hnd hb
  have hsub : Finset.range n ⊆ l.toFinset := by
    intro x hx
    exact List.mem_toFinset.mpr (hfull x (Finset.mem_range.mp hx))
  have := Finset.card_le_card hsub
  rw [Finset.card_range, List.toFinset_card_of_nodup hnd] at this
  omega

/-- Correctness of `get_node_order` under the no-edge-into-an-input
condition: shared between the C3 and C4 developments. -/
theorem node_order_with_spec (g : Genome) (extras : List ConnectionGene)
    (hval : ∀ c ∈ g.enabled ++ extras,
      c.fromIdx < g.node_genes.length ∧ c.toIdx < g.node_genes.length)
    (hto : ∀ c ∈ g.enabled ++ extras, ∀ nd,
      g.node_genes.get? c.toIdx = some nd → nd.kind ≠ NodeKind.Input) :
    (g.node_order_with extras = none ↔
        hasCycle g.node_genes.length (edgesOf (g.enabled ++ extras)) = true)
      ∧ ∀ l, g.node_order_with extras = some l →
          (∀ i < g.node_genes.length, l.count i = 1)
            ∧ isTopoOrder (edgesOf (g.enabled ++ extras)) l := by
  set conns := g.enabled ++ extras with hconns
  set n := g.node_genes.length with hn
  set R := kahnLoop conns g.node_genes (n + 1) (inputSeeds g.node_genes)
    with hR
  have hseeds := kahnInv_seeds conns g.node_genes
  have hinv : KahnInv conns g.node_genes R := kahnLoop_inv (n + 1) hseeds
  obtain ⟨hnd, hb, hstep⟩ := hinv
  have hfix : readyNodes conns g.node_genes R = [] :=
    kahnLoop_fixpoint (n + 1) hseeds.1 hseeds.2.1 (by omega)
  have hunfold : g.node_order_with extras =
      (if R.length == n then some R else none) := by
    show g.get_node_order (some extras) = _
    rw [Genome.get_node_order]
    rfl
  have hcomplete_of_acyc : hasCycle n (edgesOf conns) = false → R.length = n := by
    intro hacyc
    exact length_eq_of_full hnd hb
      (kahn_no_cycle_complete (fun c hc => (hval c hc).1) hfix hacyc)
  have hacyc_of_complete : R.length = n → hasCycle n (edgesOf conns) = false := by
    intro hlen
    by_contra hcyc
    rw [Bool.not_eq_false, hasCycle, List.any_eq_true] at hcyc
    obtain ⟨v, hv, hreach⟩ := hcyc
    have hvR : v ∈ R :=
      nodup_bounded_full hnd hb hlen v (List.mem_range.mp hv)
    have := kahnInv_reach ⟨hnd, hb, hstep⟩ hto n v v hreach hvR
    omega
  constructor
  · rw [hunfold]
    constructor
    · intro hnone
      have hlen : ¬ (R.length == n) = true := by
        intro h
        rw [if_pos h] at hnone
        exact Option.some_ne_none R hnone
      by_contra hcyc
      rw [Bool.not_eq_true] at hcyc
      exact hlen (beq_iff_eq.mpr (hcomplete_of_acyc hcyc))
    · intro hcyc
      have hlen : R.length ≠ n := by
        intro h
        rw [hacyc_of_complete h] at hcyc
        exact Bool.false_ne_true hcyc
      rw [if_neg (by simpa using hlen)]
  · intro l hl
    rw [hunfold] at hl
    by_cases hlen : (R.length == n) = true
    · rw [if_pos hlen] at hl
      obtain rfl : R = l := Option.some_injective _ hl
      have hlen' : R.length = n := beq_iff_eq.mp hlen
      have hfull := nodup_bounded_full hnd hb hlen'
      constructor
      · intro i hi
        exact List.count_eq_one_of_mem hnd (hfull i hi)
      · intro e he
        obtain ⟨c, hc, hcf, hct⟩ := edgesOf_mem.mp he
        have hctn : c.toIdx < n := (hval c hc).2
        have hmem : c.toIdx ∈ R := hfull c.toIdx hctn
        rcases hstep c.toIdx hmem with hin | hpred
        · obtain ⟨nd, hget, hkind⟩ := hin
          exact absurd hkind (hto c hc nd hget)
        · obtain ⟨_, hidx⟩ := hpred c hc rfl
          rw [hcf, hct] at hidx
          exact hidx
    · rw [if_neg hlen] at hl
      exact absurd hl (Option.noConfusion)

/-- C3 (amended): for a genome and extras whose connection endpoints are
valid node indices and none of which (enabled or extra) targets an `Input`
node, `get_node_order` returns `none` exactly when the enabled connections
plus the extras contain a cycle, and any returned order lists every node
index exactly once in topological order.  (Without the
no-edge-into-an-input condition the equivalence fails, because
`get_node_order` seeds all input nodes as visited: see the
counterexample.) -/
theorem c3_node_order_topological (g : Genome) (extras : List ConnectionGene)
    (hval : ∀ c ∈ g.enabled ++ extras,
      c.fromIdx < g.node_genes.length ∧ c.toIdx < g.node_genes.length)
    (hto : ∀ c ∈ g.enabled ++ extras, ∀ nd,
      g.node_genes.get? c.toIdx = some nd → nd.kind ≠ NodeKind.Input) :
    (g.node_order_with extras = none ↔
        hasCycle g.node_genes.length (edgesOf (g.enabled ++ extras)) = true)
      ∧ ∀ l, g.node_order_with extras = some l →
          (∀ i < g.node_genes.length, l.count i = 1)
            ∧ isTopoOrder (edgesOf (g.enabled ++ extras)) l :=
  node_order_with_spec g extras hval hto

/-- C3 counterexample: the claim as stated quantifies over all extras with
valid endpoints; with two input nodes and the extras `0 → 1, 1 → 0` the
edge set has a cycle, yet `get_node_order` returns an order (input nodes
are seeded as visited regardless of their incoming edges), and the returned
order violates the edge `1 → 0`. -/
theorem c3_counterexample :
    gInputCycle.node_order_with [mkConn 0 1, mkConn 1 0] = some [0, 1, 2]
      ∧ hasCycle gInputCycle.node_genes.length
          (edgesOf (gInputCycle.enabled ++ [mkConn 0 1, mkConn 1 0])) = true
      ∧ (∀ c ∈ gInputCycle.enabled ++ [mkConn 0 1, mkConn 1 0],
          c.fromIdx < gInputCycle.node_genes.length
            ∧ c.toIdx < gInputCycle.node_genes.length) := by
  refine ⟨by decide, by decide, by decide⟩

/-- C3 witness: on the acyclic six-node genome of the source's own test,
adding the extra edge `3 → 5` closes the cycle `3 → 5 → 4 → 3` and the
amended theorem yields `node_order_with = none`. -/
theorem c3_witness : gDag.node_order_with [mkConn 3 5] = none := by
  have h := c3_node_order_topological gDag [mkConn 3 5] (by decide) (by decide)
  exact h.1.mpr (by decide)

/-! ### `add_connection` (C4) -/

theorem reachesIn_of_subset {E E' : List (Nat × Nat)}
    (h : ∀ e ∈ E, e ∈ E') :
    ∀ fuel u v, reachesIn E fuel u v = true → reachesIn E' fuel u v = true := by
  intro fuel
  induction fuel with
  | zero => intro u v hr; simp [reachesIn] at hr
  | succ fuel ih =>
      intro u v hr
      rw [reachesIn, List.any_eq_true] at hr ⊢
      obtain ⟨e, he, hcond⟩ := hr
      refine ⟨e, h e he, ?_⟩
      simp only [Bool.and_eq_true, Bool.or_eq_true] at hcond ⊢
      refine ⟨hcond.1, ?_⟩
      rcases hcond.2 with hdir | hrec
      · exact Or.inl hdir
      · exact Or.inr (ih e.2 v hrec)

theorem hasCycle_eq_of_mem_iff {n : Nat} {E E' : List (Nat × Nat)}
    (h : ∀ e, e ∈ E ↔ e ∈ E') : hasCycle n E = hasCycle n E' := by
  have hiff : hasCycle n E = true ↔ hasCycle n E' = true := by
    rw [hasCycle, hasCycle, List.any_eq_true, List.any_eq_true]
    constructor
    · rintro ⟨v, hv, hr⟩
      exact ⟨v, hv, reachesIn_of_subset (fun e he => (h e).mp he) n v v hr⟩
    · rintro ⟨v, hv, hr⟩
      exact ⟨v, hv, reachesIn_of_subset (fun e he => (h e).mpr he) n v v hr⟩
  cases hE : hasCycle n E with
  | true => exact (hiff.mp hE).symm
  | false =>
      cases hE' : hasCycle n E' with
      | true =>
          have := hiff.mpr hE'
          rw [hE] at this
          exact absurd this (by simp)
      | false => rfl

theorem mem_edges_filter_cons {c : ConnectionGene} {l : List ConnectionGene}
    {x : Nat × Nat} :
    x ∈ edgesOf ((c :: l).filter (fun d => !d.disabled)) ↔
      ((c.disabled = false ∧ x = (c.fromIdx, c.toIdx))
        ∨ x ∈ edgesOf (l.filter (fun d => !d.disabled))) := by
  by_cases hd : c.disabled
  · simp [List.filter_cons, hd]
  · simp only [Bool.not_eq_true] at hd
    simp [List.filter_cons, hd, edgesOf]

theorem edges_enableFirst {l : List ConnectionGene} {f t : Nat}
    (hmatch : l.any (fun c => c.fromIdx == f && c.toIdx == t) = true) :
    ∀ x, x ∈ edgesOf ((enableFirst l f t).filter (fun c => !c.disabled)) ↔
      (x ∈ edgesOf (l.filter (fun c => !c.disabled)) ∨ x = (f, t)) := by
  induction l with
  | nil => simp at hmatch
  | cons c rest ih =>
      intro x
      by_cases hc : (c.fromIdx == f && c.toIdx == t) = true
      · have hcft : c.fromIdx = f ∧ c.toIdx = t := by
          simpa [Bool.and_eq_true, beq_iff_eq] using hc
        rw [enableFirst, if_pos hc]
        rw [show ({ c with disabled := false } :: rest : List ConnectionGene)
            = { c with disabled := false } :: rest from rfl]
        rw [mem_edges_filter_cons, mem_edges_filter_cons]
        have h1 : ({ c with disabled := false } : ConnectionGene).disabled = false := rfl
        have h2 : ({ c with disabled := false } : ConnectionGene).fromIdx = c.fromIdx := rfl
        have h3 : ({ c with disabled := false } : ConnectionGene).toIdx = c.toIdx := rfl
        rw [h1, h2, h3, hcft.1, hcft.2]
        tauto
      · rw [enableFirst, if_neg hc]
        have hmatch' : rest.any (fun c => c.fromIdx == f && c.toIdx == t) = true := by
          rw [List.any_cons] at hmatch
          rcases Bool.or_eq_true_iff.mp hmatch with h | h
          · exact absurd h hc
          · exact h
        rw [mem_edges_filter_cons, mem_edges_filter_cons, ih hmatch']
        tauto

/-- C4 (amended): for a genome that, besides having an acyclic
enabled-connection subgraph, satisfies data-model invariant 2 for its
enabled connections (valid endpoints, no enabled connection into an
`Input`), and valid indices `from`, `to`: if the new edge would create a
cycle, or `from` is an `Output`, or `to` is an `Input`, then
`add_connection` returns `Err` with the genome unchanged; and whenever it
returns `Ok` the enabled-connection subgraph is still acyclic.  (Without
invariant 2 the guard can be fooled — see the counterexample.) -/
theorem c4_add_connection_rejects_cycles (g : Genome) (f t : Nat)
    (hval : ∀ c ∈ g.enabled,
      c.fromIdx < g.node_genes.length ∧ c.toIdx < g.node_genes.length)
    (hto : ∀ c ∈ g.enabled, ∀ nd,
      g.node_genes.get? c.toIdx = some nd → nd.kind ≠ NodeKind.Input)
    (hacyc : hasCycle g.node_genes.length (edgesOf g.enabled) = false)
    (hf : f < g.node_genes.length) (ht : t < g.node_genes.length) :
    ∃ r, g.add_connection f t = some r
      ∧ ((hasCycle g.node_genes.length
            (edgesOf (g.enabled ++ [ConnectionGene.new f t])) = true
            ∨ (∃ nd, g.node_genes.get? f = some nd ∧ nd.kind = NodeKind.Output)
            ∨ (∃ nd, g.node_genes.get? t = some nd ∧ nd.kind = NodeKind.Input))
          → r = (Except.error (), g))
      ∧ ∀ i g', r = (Except.ok i, g') →
          hasCycle g'.node_genes.length (edgesOf g'.enabled) = false := by
  obtain ⟨ndf, hndf⟩ : ∃ nd, g.node_genes.get? f = some nd :=
    ⟨g.node_genes.get ⟨f, hf⟩, List.get?_eq_get hf⟩
  obtain ⟨ndt, hndt⟩ : ∃ nd, g.node_genes.get? t = some nd :=
    ⟨g.node_genes.get ⟨t, ht⟩, List.get?_eq_get ht⟩
  have hgf : g.node_genes[f]? = some ndf := by
    rw [← List.get?_eq_getElem?]
    exact hndf
  have hgt : g.node_genes[t]? = some ndt := by
    rw [← List.get?_eq_getElem?]
    exact hndt
  by_cases hcond : (ndf.kind == NodeKind.Output || ndt.kind == NodeKind.Input
      || (g.node_order_with [ConnectionGene.new f t]).isNone) = true
  · have hccf : g.can_connect f t = some false := by
      simp only [Genome.can_connect, hndf, hndt, Option.bind_eq_bind,
        Option.some_bind]
      rw [if_pos hcond]
      rfl
    have haddf : g.add_connection f t = some (Except.error (), g) := by
      simp [Genome.add_connection, hccf]
    refine ⟨(Except.error (), g), haddf, fun _ => rfl, ?_⟩
    intro i g' heq
    simp at heq
  · simp only [Bool.or_eq_true, not_or, Bool.not_eq_true] at hcond
    obtain ⟨⟨houtk, hink⟩, hsome⟩ := hcond
    have houtk' : ndf.kind ≠ NodeKind.Output := by
      intro h
      rw [h] at houtk
      simp at houtk
    have hink' : ndt.kind ≠ NodeKind.Input := by
      intro h
      rw [h] at hink
      simp at hink
    have hcondf : (ndf.kind == NodeKind.Output || ndt.kind == NodeKind.Input
        || (g.node_order_with [ConnectionGene.new f t]).isNone) = false := by
      rw [houtk, hink, hsome]
      rfl
    have hcondn : ¬ (ndf.kind == NodeKind.Output || ndt.kind == NodeKind.Input
        || (g.node_order_with [ConnectionGene.new f t]).isNone) = true := by
      rw [hcondf]
      simp
    have hval' : ∀ c ∈ g.enabled ++ [ConnectionGene.new f t],
        c.fromIdx < g.node_genes.length ∧ c.toIdx < g.node_genes.length := by
      intro c hc
      rcases List.mem_append.mp hc with hc | hc
      · exact hval c hc
      · obtain rfl : c = ConnectionGene.new f t := List.mem_singleton.mp hc
        exact ⟨hf, ht⟩
    have hto' : ∀ c ∈ g.enabled ++ [ConnectionGene.new f t], ∀ nd,
        g.node_genes.get? c.toIdx = some nd → nd.kind ≠ NodeKind.Input := by
      intro c hc nd hget
      rcases List.mem_append.mp hc with hc | hc
      · exact hto c hc nd hget
      · obtain rfl : c = ConnectionGene.new f t := List.mem_singleton.mp hc
        have : nd = ndt := by
          have : g.node_genes.get? t = some nd := hget
          rw [hndt] at this
          exact (Option.some_injective _ this).symm
        rw [this]
        exact hink'
    have hspec := node_order_with_spec g [ConnectionGene.new f t] hval' hto'
    have hnocyc : hasCycle g.node_genes.length
        (edgesOf (g.enabled ++ [ConnectionGene.new f t])) = false := by
      by_contra h
      rw [Bool.not_eq_false] at h
      have := hspec.1.mpr h
      rw [this] at hsome
      simp at hsome
    by_cases hproj : g.is_projecting f t = true
    · have hccf : g.can_connect f t = some false := by
        simp only [Genome.can_connect, hndf, hndt, Option.bind_eq_bind,
          Option.some_bind]
        rw [if_neg hcondn, hproj]
        rfl
      have haddf : g.add_connection f t = some (Except.error (), g) := by
        simp [Genome.add_connection, hccf]
      refine ⟨(Except.error (), g), haddf, fun _ => rfl, ?_⟩
      intro i g' heq
      simp at heq
    · have hcct : g.can_connect f t = some true := by
        rw [Bool.not_eq_true] at hproj
        simp only [Genome.can_connect, hndf, hndt, Option.bind_eq_bind,
          Option.some_bind]
        rw [if_neg hcondn, hproj]
        rfl
      by_cases hany : g.connection_genes.any
          (fun c => c.fromIdx == f && c.toIdx == t) = true
      · have haddok : g.add_connection f t = some
            (Except.ok ((enableFirst g.connection_genes f t).length - 1),
              { g with connection_genes := enableFirst g.connection_genes f t }) := by
          simp [Genome.add_connection, hcct, hany]
        refine ⟨_, haddok, ?_, ?_⟩
        · intro hprem
          exfalso
          rcases hprem with hcyc | ⟨nd, hget, hkind⟩ | ⟨nd, hget, hkind⟩
          · rw [hcyc] at hnocyc
            exact Bool.true_eq_false.mp hnocyc
          · rw [hndf] at hget
            exact houtk' ((Option.some_injective _ hget) ▸ hkind)
          · rw [hndt] at hget
            exact hink' ((Option.some_injective _ hget) ▸ hkind)
        · intro i g' heq
          obtain ⟨-, rfl⟩ := Prod.mk.injEq .. ▸ heq
          show hasCycle g.node_genes.length
            (edgesOf ((enableFirst g.connection_genes f t).filter
              (fun c => !c.disabled))) = false
          have hmemiff : ∀ x,
              x ∈ edgesOf ((enableFirst g.connection_genes f t).filter
                (fun c => !c.disabled)) ↔
              x ∈ edgesOf (g.enabled ++ [ConnectionGene.new f t]) := by
            intro x
            have happ : edgesOf (g.enabled ++ [ConnectionGene.new f t])
                = edgesOf g.enabled ++ edgesOf [ConnectionGene.new f t] := by
              simp [edgesOf]
            rw [edges_enableFirst hany x, happ, List.mem_append]
            constructor
            · rintro (hx | rfl)
              · exact Or.inl hx
              · exact Or.inr (by simp [edgesOf, ConnectionGene.new])
            · rintro (hx | hx)
              · exact Or.inl hx
              · right
                simpa [edgesOf, ConnectionGene.new] using hx
          rw [hasCycle_eq_of_mem_iff hmemiff]
          exact hnocyc
      · have haddok : g.add_connection f t = some
            (Except.ok ((g.connection_genes ++ [ConnectionGene.new f t]).length - 1),
              { g with connection_genes :=
                g.connection_genes ++ [ConnectionGene.new f t] }) := by
          simp only [Bool.not_eq_true] at hany
          simp [Genome.add_connection, hcct, hany]
        refine ⟨_, haddok, ?_, ?_⟩
        · intro hprem
          exfalso
          rcases hprem with hcyc | ⟨nd, hget, hkind⟩ | ⟨nd, hget, hkind⟩
          · rw [hcyc] at hnocyc
            exact Bool.true_eq_false.mp hnocyc
          · rw [hndf] at hget
            exact houtk' ((Option.some_injective _ hget) ▸ hkind)
          · rw [hndt] at hget
            exact hink' ((Option.some_injective _ hget) ▸ hkind)
        · intro i g' heq
          obtain ⟨-, rfl⟩ := Prod.mk.injEq .. ▸ heq
          show hasCycle g.node_genes.length
            (edgesOf ((g.connection_genes ++ [ConnectionGene.new f t]).filter
              (fun c => !c.disabled))) = false
          have : (g.connection_genes ++ [ConnectionGene.new f t]).filter
              (fun c => !c.disabled) = g.enabled ++ [ConnectionGene.new f t] := by
            rw [List.filter_append]
            rfl
          rw [this]
          exact hnocyc

/-- C4 counterexample: the claim as stated quantifies over every genome with
an acyclic enabled subgraph; on a genome with the invariant-violating
enabled connection `1 → 0` into the `Input` node 0, `add_connection(0, 1)`
creates the cycle `0 → 1 → 0` yet returns `Ok`, because the topological
check seeds input nodes as visited. -/
theorem c4_counterexample :
    hasCycle gIntoInput.node_genes.length
        (edgesOf (gIntoInput.enabled ++ [ConnectionGene.new 0 1])) = true
      ∧ hasCycle gIntoInput.node_genes.length (edgesOf gIntoInput.enabled) = false
      ∧ (gIntoInput.add_connection 0 1).map
          (fun r => (r.1.isOk,
            hasCycle r.2.node_genes.length (edgesOf r.2.enabled))) =
        some (true, true) := by
  refine ⟨by decide, by decide, by decide⟩

/-- C4 witness: on the diamond genome of the source's `can_connect` test,
`add_connection(3, 1)` would close the cycle `1 → 3 → 1`, and the amended
theorem forces the `Err`-and-unchanged result. -/
theorem c4_witness :
    gDag.add_connection 3 5 = some (Except.error (), gDag) := by
  have h := c4_add_connection_rejects_cycles gDag 3 5 (by decide) (by decide)
    (by decide) (by decide) (by decide)
  obtain ⟨r, hadd, herr, -⟩ := h
  rw [hadd, herr (Or.inl (by decide))]

/-! ### Crossover: connection inheritance and node counts (C5, C6) -/

theorem mem_insertConn {c x : ConnectionGene} {l : List ConnectionGene} :
    x ∈ insertConn c l ↔ x = c ∨ x ∈ l := by
  induction l with
  | nil => simp [insertConn]
  | cons d rest ih =>
      rw [insertConn]
      by_cases h : connLe c d = true
      · simp [h, List.mem_cons]
      · simp only [if_neg h, List.mem_cons, ih]
        tauto

theorem mem_sortConns {x : ConnectionGene} {l : List ConnectionGene} :
    x ∈ sortConns l ↔ x ∈ l := by
  induction l with
  | nil => simp [sortConns]
  | cons c rest ih =>
      show x ∈ insertConn c (sortConns rest) ↔ _
      rw [mem_insertConn, ih, List.mem_cons]

theorem lookupFlag_eq_none_iff {m : List (Nat × Bool)} {n : Nat} :
    lookupFlag m n = none ↔ n ∉ m.map Prod.fst := by
  induction m with
  | nil => simp [lookupFlag]
  | cons p rest ih =>
      rw [lookupFlag]
      by_cases h : (p.1 == n) = true
      · have : p.1 = n := beq_iff_eq.mp h
        simp [h, this]
      · have : p.1 ≠ n := by
          intro hcon
          exact h (beq_iff_eq.mpr hcon)
        simp [h, ih, this, Ne.symm this]

theorem lookupFlag_some_mem {m : List (Nat × Bool)} {n : Nat} {b : Bool}
    (h : lookupFlag m n = some b) : (n, b) ∈ m := by
  induction m with
  | nil => simp [lookupFlag] at h
  | cons p rest ih =>
      rw [lookupFlag] at h
      by_cases hp : (p.1 == n) = true
      · rw [if_pos hp] at h
        obtain rfl : p.2 = b := Option.some_injective _ h
        have hpn : p.1 = n := beq_iff_eq.mp hp
        have : (n, p.2) = p := by
          rw [← hpn]
        rw [this]
        exact List.mem_cons_self p rest
      · rw [if_neg hp] at h
        exact List.mem_cons_of_mem p (ih h)

theorem keys_nodup_entry_unique {m : List (Nat × Bool)}
    (hnd : (m.map Prod.fst).Nodup) {p q : Nat × Bool} (hp : p ∈ m) (hq : q ∈ m)
    (heq : p.1 = q.1) : p = q := by
  induction m with
  | nil => simp at hp
  | cons r rest ih =>
      rw [List.map_cons, List.nodup_cons] at hnd
      rcases List.mem_cons.mp hp with rfl | hp'
      · rcases List.mem_cons.mp hq with rfl | hq'
        · rfl
        · exact absurd (heq ▸ List.mem_map_of_mem Prod.fst hq') hnd.1
      · rcases List.mem_cons.mp hq with rfl | hq'
        · exact absurd (heq ▸ List.mem_map_of_mem Prod.fst hp') hnd.1
        · exact ih hnd.2 hp' hq'

theorem markSeen_inv {m : List (Nat × Bool)} {seen : List Nat} {x : Nat}
    (hnd : (m.map Prod.fst).Nodup)
    (hmem : ∀ y, y ∈ m.map Prod.fst ↔ y ∈ seen)
    (hflag : ∀ p ∈ m, p.2 = true ↔ 2 ≤ seen.count p.1) :
    ((markSeen m x).map Prod.fst).Nodup
      ∧ (∀ y, y ∈ (markSeen m x).map Prod.fst ↔ y ∈ seen ++ [x])
      ∧ ∀ p ∈ markSeen m x, p.2 = true ↔ 2 ≤ (seen ++ [x]).count p.1 := by
  have hcount : ∀ (y : Nat), (seen ++ [x]).count y
      = seen.count y + (if y = x then 1 else 0) := by
    intro y
    rw [List.count_append]
    by_cases h : y = x
    · rw [if_pos h, h]
      simp
    · rw [if_neg h]
      have : x ≠ y := fun hc => h hc.symm
      simp [List.count_singleton', this]
  rw [markSeen]
  cases hl : lookupFlag m x with
  | none =>
      have hxk : x ∉ m.map Prod.fst := lookupFlag_eq_none_iff.mp hl
      have hxs : x ∉ seen := fun h => hxk ((hmem x).mpr h)
      refine ⟨?_, ?_, ?_⟩
      · rw [List.map_append]
        exact List.Nodup.append hnd (by simp)
          (by intro y hy hy'; simp at hy'; exact hxk (hy' ▸ hy))
      · intro y
        rw [List.map_append, List.mem_append, List.mem_append, hmem y]
        simp
      · intro p hp
        rcases List.mem_append.mp hp with hp' | hp'
        · have hne : p.1 ≠ x := by
            intro h
            exact hxk (h ▸ List.mem_map_of_mem Prod.fst hp')
          rw [hcount p.1, if_neg hne]
          simpa using hflag p hp'
        · obtain rfl : p = (x, false) := List.mem_singleton.mp hp'
          have hc0 : seen.count x = 0 := List.count_eq_zero.mpr hxs
          show (false = true) ↔ _
          rw [hcount x, if_pos rfl, hc0]
          simp
  | some b =>
    cases b with
    | false =>
      have hin : (x, false) ∈ m := lookupFlag_some_mem hl
      have hxk : x ∈ m.map Prod.fst := List.mem_map_of_mem Prod.fst hin
      have hxs : x ∈ seen := (hmem x).mp hxk
      have hkeys : (m.map (fun p => if p.1 == x then (x, true) else p)).map
          Prod.fst = m.map Prod.fst := by
        rw [List.map_map]
        apply List.map_congr_left
        intro p _
        by_cases h : p.1 = x
        · simp [h]
        · simp [h]
      refine ⟨by rw [hkeys]; exact hnd, ?_, ?_⟩
      · intro y
        rw [hkeys, hmem y, List.mem_append]
        constructor
        · exact Or.inl
        · rintro (h | h)
          · exact h
          · have : y = x := by simpa using h
            rw [this]
            exact hxs
      · intro p hp
        obtain ⟨q, hq, hqp⟩ := List.mem_map.mp hp
        by_cases h : q.1 = x
        · simp only [h, beq_self_eq_true, if_true] at hqp
          have hqf : q = (x, false) :=
            keys_nodup_entry_unique hnd hq hin (by rw [h])
          have hold := hflag q hq
          rw [hqf] at hold
          simp only [show ((x, false) : Nat × Bool).2 = false from rfl,
            Bool.false_eq_true, false_iff, not_le] at hold
          have h1 : 1 ≤ seen.count x := List.one_le_count_iff.mpr hxs
          have hcnt : seen.count x = 1 := by omega
          rw [← hqp]
          show (true = true) ↔ _
          rw [hcount x, if_pos rfl, hcnt]
          simp
        · have hb : (q.1 == x) = false := by
            simpa using h
          rw [hb] at hqp
          simp only [Bool.false_eq_true, if_false] at hqp
          rw [← hqp, hcount q.1, if_neg h]
          simpa using hflag q hq
    | true =>
      have hin : (x, true) ∈ m := lookupFlag_some_mem hl
      have hxk : x ∈ m.map Prod.fst := List.mem_map_of_mem Prod.fst hin
      have hxs : x ∈ seen := (hmem x).mp hxk
      refine ⟨hnd, ?_, ?_⟩
      · intro y
        rw [hmem y, List.mem_append]
        constructor
        · exact Or.inl
        · rintro (h | h)
          · exact h
          · have : y = x := by simpa using h
            rw [this]
            exact hxs
      · intro p hp
        by_cases hne : p.1 = x
        · have hpt : p = (x, true) := keys_nodup_entry_unique hnd hp hin hne
          have hold := hflag p hp
          rw [hpt] at hold ⊢
          simp only [show ((x, true) : Nat × Bool).2 = true from rfl,
            true_iff] at hold
          have h2 : 2 ≤ seen.count x := hold
          show (true = true) ↔ _
          rw [hcount x, if_pos rfl]
          constructor
          · intro _
            omega
          · intro _
            rfl
        · rw [hcount p.1, if_neg hne]
          simpa using hflag p hp


theorem foldl_markSeen_inv (L : List Nat) :
    ∀ (m : List (Nat × Bool)) (seen : List Nat),
      (m.map Prod.fst).Nodup →
      (∀ y, y ∈ m.map Prod.fst ↔ y ∈ seen) →
      (∀ p ∈ m, p.2 = true ↔ 2 ≤ seen.count p.1) →
      ((L.foldl markSeen m).map Prod.fst).Nodup
        ∧ (∀ y, y ∈ (L.foldl markSeen m).map Prod.fst ↔ y ∈ seen ++ L)
        ∧ ∀ p ∈ L.foldl markSeen m, p.2 = true ↔ 2 ≤ (seen ++ L).count p.1 := by
  induction L with
  | nil =>
      intro m seen hnd hmem hflag
      rw [List.foldl_nil, List.append_nil]
      exact ⟨hnd, hmem, hflag⟩
  | cons x rest ih =>
      intro m seen hnd hmem hflag
      obtain ⟨hnd', hmem', hflag'⟩ := markSeen_inv hnd hmem hflag
      have := ih (markSeen m x) (seen ++ [x]) hnd' hmem' hflag'
      rw [List.append_assoc, List.singleton_append] at this
      exact this

theorem occFlags_keys_nodup (L : List Nat) :
    ((occurrenceFlags L).map Prod.fst).Nodup :=
  (foldl_markSeen_inv L [] [] (by simp) (by simp) (by simp)).1

theorem occFlags_mem_keys (L : List Nat) (x : Nat) :
    x ∈ (occurrenceFlags L).map Prod.fst ↔ x ∈ L := by
  have := (foldl_markSeen_inv L [] [] (by simp) (by simp) (by simp)).2.1 x
  simpa using this

theorem occFlags_flag {L : List Nat} {p : Nat × Bool}
    (hp : p ∈ occurrenceFlags L) : p.2 = true ↔ 2 ≤ L.count p.1 := by
  have := (foldl_markSeen_inv L [] [] (by simp) (by simp) (by simp)).2.2 p hp
  simpa using this

theorem find?_innov_isSome {l : List ConnectionGene} {inn : Nat} :
    (l.find? (fun c => c.innovation == inn)).isSome = true ↔
      inn ∈ innovationsOf l := by
  rw [List.find?_isSome]
  constructor
  · rintro ⟨c, hc, hp⟩
    exact List.mem_map.mpr ⟨c, hc, beq_iff_eq.mp hp⟩
  · intro h
    obtain ⟨c, hc, hceq⟩ := List.mem_map.mp h
    exact ⟨c, hc, beq_iff_eq.mpr hceq⟩

theorem find?_innov_eq {l : List ConnectionGene} {inn : Nat}
    {c : ConnectionGene} (h : l.find? (fun d => d.innovation == inn) = some c) :
    c.innovation = inn := by
  have hp := List.find?_some h
  exact beq_iff_eq.mp hp

theorem pick_innov {a b : Genome} {fa fb : Rat} {coin : Nat → Bool}
    {k inn : Nat} {common : Bool} {c : ConnectionGene}
    (h : (pickConnForInnovation a b fa fb coin k inn common).1 = some c) :
    c.innovation = inn := by
  rw [pickConnForInnovation] at h
  by_cases hcommon : common = true
  · rw [hcommon] at h
    simp only [if_true] at h
    by_cases hcoin : coin k = true
    · rw [if_pos hcoin] at h
      exact find?_innov_eq h
    · rw [if_neg hcoin] at h
      exact find?_innov_eq h
  · rw [Bool.not_eq_true] at hcommon
    rw [hcommon] at h
    simp only [Bool.false_eq_true, if_false] at h
    rcases hfa : decide (fa > fb) with _ | _
    · rcases hcav : a.connection_genes.find? (fun d => d.innovation == inn)
        with _ | cav
      · rw [hfa, hcav] at h
        have h' : b.connection_genes.find? (fun d => d.innovation == inn)
            = some c := h
        exact find?_innov_eq h'
      · rw [hfa, hcav] at h
        have h' : (none : Option ConnectionGene) = some c := h
        simp at h'
    · rcases hcav : a.connection_genes.find? (fun d => d.innovation == inn)
        with _ | cav
      · rw [hfa, hcav] at h
        have h' : (none : Option ConnectionGene) = some c := h
        simp at h'
      · rw [hfa, hcav] at h
        have h' : some cav = some c := h
        obtain rfl := Option.some_injective _ h'
        exact find?_innov_eq hcav

theorem connPhase_innov_sub {a b : Genome} {fa fb : Rat} {coin : Nat → Bool} :
    ∀ (F : List (Nat × Bool)) (k : Nat) (x : ConnectionGene),
      x ∈ connPhase a b fa fb coin F k → x.innovation ∈ F.map Prod.fst := by
  intro F
  induction F with
  | nil => intro k x hx; simp [connPhase] at hx
  | cons p rest ih =>
      intro k x hx
      obtain ⟨inn, common⟩ := p
      rw [connPhase] at hx
      rcases List.mem_append.mp hx with hx' | hx'
      · have : (pickConnForInnovation a b fa fb coin k inn common).1 = some x := by
          rcases hp : (pickConnForInnovation a b fa fb coin k inn common).1
            with _ | c
          · rw [hp] at hx'
            simp [Option.toList] at hx'
          · rw [hp] at hx'
            simp only [Option.toList] at hx'
            obtain rfl : x = c := List.mem_singleton.mp hx'
            rfl
        rw [List.map_cons, pick_innov this]
        exact List.mem_cons_self inn (rest.map Prod.fst)
      · exact List.mem_cons_of_mem _ (ih _ x hx')

theorem pick_unmatched_isSome (a b : Genome) (fa fb : Rat)
    (coin : Nat → Bool) (k inn : Nat) :
    (pickConnForInnovation a b fa fb coin k inn false).1.isSome = true ↔
      (if fa > fb then inn ∈ innovationsOf a.connection_genes
       else (inn ∉ innovationsOf a.connection_genes
          ∧ inn ∈ innovationsOf b.connection_genes)) := by
  rw [pickConnForInnovation]
  simp only [Bool.false_eq_true, if_false]
  rcases hca : a.connection_genes.find? (fun c => c.innovation == inn)
      with _ | cav
  · by_cases hfa : fa > fb
    · rw [decide_eq_true hfa, if_pos hfa, hca]
      show false = true ↔ inn ∈ innovationsOf a.connection_genes
      constructor
      · intro h
        exact absurd h (by simp)
      · intro h
        have := find?_innov_isSome.mpr h
        rw [hca] at this
        simp at this
    · rw [decide_eq_false hfa, if_neg hfa, hca]
      show (b.connection_genes.find?
          (fun c => c.innovation == inn)).isSome = true ↔ _
      constructor
      · intro h
        refine ⟨?_, find?_innov_isSome.mp h⟩
        intro hA
        have := find?_innov_isSome.mpr hA
        rw [hca] at this
        simp at this
      · intro h
        exact find?_innov_isSome.mpr h.2
  · by_cases hfa : fa > fb
    · rw [decide_eq_true hfa, if_pos hfa, hca]
      show true = true ↔ inn ∈ innovationsOf a.connection_genes
      have : (a.connection_genes.find?
          (fun c => c.innovation == inn)).isSome = true := by
        rw [hca]
        rfl
      simp [find?_innov_isSome.mp this]
    · rw [decide_eq_false hfa, if_neg hfa, hca]
      show false = true ↔ _
      have hA : inn ∈ innovationsOf a.connection_genes := by
        have : (a.connection_genes.find?
            (fun c => c.innovation == inn)).isSome = true := by
          rw [hca]
          rfl
        exact find?_innov_isSome.mp this
      constructor
      · intro h
        exact absurd h (by simp)
      · rintro ⟨hnA, -⟩
        exact absurd hA hnA

theorem connPhase_unmatched_mem {a b : Genome} {fa fb : Rat}
    {coin : Nat → Bool} {inn : Nat}
    (hx : (inn ∈ innovationsOf a.connection_genes
            ∧ inn ∉ innovationsOf b.connection_genes)
        ∨ (inn ∉ innovationsOf a.connection_genes
            ∧ inn ∈ innovationsOf b.connection_genes)) :
    ∀ (F : List (Nat × Bool)), (F.map Prod.fst).Nodup → (inn, false) ∈ F →
      ∀ k, (inn ∈ (connPhase a b fa fb coin F k).map (fun c => c.innovation) ↔
        (if fa > fb then inn ∈ innovationsOf a.connection_genes
         else inn ∈ innovationsOf b.connection_genes)) := by
  intro F
  induction F with
  | nil =>
      intro _ hmem
      simp at hmem
  | cons p rest ih =>
      intro hnd hmem k
      by_cases hkey : p.1 = inn
      · have hp : p = (inn, false) :=
          keys_nodup_entry_unique hnd (List.mem_cons_self p rest) hmem hkey
        subst hp
        rw [connPhase, List.map_append, List.mem_append]
        have hnotail : inn ∉ (connPhase a b fa fb coin rest
            (pickConnForInnovation a b fa fb coin k inn false).2).map
              (fun c => c.innovation) := by
          intro hcon
          obtain ⟨x, hxmem, hxinn⟩ := List.mem_map.mp hcon
          have := connPhase_innov_sub rest _ x hxmem
          rw [hxinn] at this
          rw [List.map_cons, List.nodup_cons] at hnd
          exact hnd.1 this
        have hpickinn : ∀ c,
            (pickConnForInnovation a b fa fb coin k inn false).1 = some c →
              c.innovation = inn := fun c hc => pick_innov hc
        have hleft := (by
          cases ho : (pickConnForInnovation a b fa fb coin k inn false).1 with
          | none => simp [Option.toList]
          | some c =>
              simp [Option.toList, hpickinn c ho] :
          inn ∈ ((pickConnForInnovation a b fa fb coin k inn false).1.toList).map
            (fun c => c.innovation) ↔
          (pickConnForInnovation a b fa fb coin k inn false).1.isSome = true)
        rw [hleft, pick_unmatched_isSome a b fa fb coin k inn]
        constructor
        · rintro (h | h)
          · by_cases hfa : fa > fb
            · rwa [if_pos hfa] at h ⊢
            · rw [if_neg hfa] at h ⊢
              exact h.2
          · exact absurd h hnotail
        · intro h
          left
          by_cases hfa : fa > fb
          · rwa [if_pos hfa] at h ⊢
          · rw [if_neg hfa] at h ⊢
            refine ⟨?_, h⟩
            rcases hx with ⟨hA, hB⟩ | ⟨hA, hB⟩
            · exact absurd h hB
            · exact hA
      · have htail : (inn, false) ∈ rest := by
          rcases List.mem_cons.mp hmem with heq | htail
          · exact absurd (congrArg Prod.fst heq).symm hkey
          · exact htail
        rw [connPhase, List.map_append, List.mem_append]
        have hnohead : inn ∉ ((pickConnForInnovation a b fa fb coin k p.1
            p.2).1.toList).map (fun c => c.innovation) := by
          intro hcon
          obtain ⟨x, hxmem, hxinn⟩ := List.mem_map.mp hcon
          have hxs : (pickConnForInnovation a b fa fb coin k p.1 p.2).1
              = some x := by
            rcases hp : (pickConnForInnovation a b fa fb coin k p.1 p.2).1
              with _ | c
            · rw [hp] at hxmem
              simp [Option.toList] at hxmem
            · rw [hp] at hxmem
              obtain rfl : x = c := List.mem_singleton.mp hxmem
              rfl
          have := pick_innov hxs
          rw [hxinn] at this
          exact hkey this.symm
        rw [List.map_cons, List.nodup_cons] at hnd
        have hiff := ih hnd.2 htail
          (pickConnForInnovation a b fa fb coin k p.1 p.2).2
        constructor
        · rintro (h | h)
          · exact absurd h hnohead
          · exact hiff.mp h
        · intro h
          exact Or.inr (hiff.mpr h)

theorem crossover_inv {a b : Genome} {fa fb : Rat} {coin : Nat → Bool}
    {nd : Nat} {child : Genome}
    (hc : crossover a fa b fb coin nd = some child) :
    ∃ inputNodes hiddenNodes outputNodes k1 k2,
      (List.range a.inputs).mapM (fun i => a.node_genes.get? i)
          = some inputNodes
        ∧ pickHiddenNodes a b coin (List.range' a.inputs
            (nodeCountTarget a.node_genes.length b.node_genes.length fa fb nd
              - a.outputs - a.inputs)) 0 = some (hiddenNodes, k1)
        ∧ pickOutputNodes a b coin (List.range a.outputs) k1
            = some (outputNodes, k2)
        ∧ child = ⟨a.inputs, a.outputs,
            sortConns (connPhase a b fa fb coin
              (occurrenceFlags (innovationsOf
                (a.connection_genes ++ b.connection_genes))) k2),
            inputNodes ++ hiddenNodes ++ outputNodes⟩
        ∧ a.inputs = b.inputs ∧ a.outputs = b.outputs
        ∧ ¬ nodeCountTarget a.node_genes.length b.node_genes.length fa fb nd
            < a.outputs := by
  rw [crossover] at hc
  by_cases h1 : (a.inputs != b.inputs || a.outputs != b.outputs) = true
  · rw [if_pos h1] at hc
    exact absurd hc (by simp)
  · rw [if_neg h1] at hc
    simp only [Bool.or_eq_true, bne_iff_ne, not_or, Decidable.not_not] at h1
    by_cases h2 : nodeCountTarget a.node_genes.length b.node_genes.length fa fb
        nd < a.outputs
    · rw [if_pos h2] at hc
      exact absurd hc (by simp)
    · rw [if_neg h2] at hc
      obtain ⟨inputNodes, hin, hc⟩ := Option.bind_eq_some.mp hc
      obtain ⟨hk1, hhid, hc⟩ := Option.bind_eq_some.mp hc
      obtain ⟨hiddenNodes, k1⟩ := hk1
      obtain ⟨hk2, hout, hc⟩ := Option.bind_eq_some.mp hc
      obtain ⟨outputNodes, k2⟩ := hk2
      refine ⟨inputNodes, hiddenNodes, outputNodes, k1, k2, hin, hhid, hout,
        ?_, h1.1, h1.2, h2⟩
      have := Option.some_injective _ hc
      exact this.symm

theorem mapM_get?_length {α : Type} {l : List α} :
    ∀ (L : List Nat) (res : List α),
      L.mapM (fun i => l.get? i) = some res → res.length = L.length := by
  intro L
  induction L with
  | nil =>
      intro res h
      simp only [List.mapM_nil] at h
      obtain rfl : [] = res := Option.some_injective _ h
      rfl
  | cons x rest ih =>
      intro res h
      simp only [List.mapM_cons] at h
      obtain ⟨y, hy, h⟩ := Option.bind_eq_some.mp h
      obtain ⟨ys, hys, h⟩ := Option.bind_eq_some.mp h
      obtain rfl : y :: ys = res := Option.some_injective _ h
      simp [ih ys hys]

theorem pickHiddenNodes_length {a b : Genome} {coin : Nat → Bool} :
    ∀ (L : List Nat) (k : Nat) (res : List NodeGene) (k' : Nat),
      pickHiddenNodes a b coin L k = some (res, k') → res.length = L.length := by
  intro L
  induction L with
  | nil =>
      intro k res k' h
      rw [pickHiddenNodes] at h
      have h' : (([], k) : List NodeGene × Nat) = (res, k') :=
        Option.some_injective _ h
      have h1 : ([] : List NodeGene) = res := congrArg Prod.fst h'
      rw [← h1]
      rfl
  | cons i rest ih =>
      intro k res k' h
      rw [pickHiddenNodes] at h
      have hcons : ∀ (nd : NodeGene) (kk : Nat),
          (do
            let p ← pickHiddenNodes a b coin rest kk
            pure (nd :: p.1, p.2) : Option (List NodeGene × Nat))
              = some (res, k') →
            res.length = (i :: rest).length := by
        intro nd kk hdo
        obtain ⟨⟨l, k''⟩, hl, hdo⟩ := Option.bind_eq_some.mp hdo
        have h' : (nd :: l, k'') = (res, k') := Option.some_injective _ hdo
        have h1 : nd :: l = res := congrArg Prod.fst h'
        rw [← h1]
        simp [ih kk l k'' hl]
      rcases hga : a.node_genes.get? i with _ | na
      · rcases hgb : b.node_genes.get? i with _ | nb
        · rw [hga, hgb] at h
          exact Option.noConfusion h
        · rw [hga, hgb] at h
          exact hcons nb k h
      · rcases hgb : b.node_genes.get? i with _ | nb
        · rw [hga, hgb] at h
          exact hcons na k h
        · rw [hga, hgb] at h
          replace h : (match na.kind == NodeKind.Hidden,
              nb.kind == NodeKind.Hidden with
            | true, false => (do
                let p ← pickHiddenNodes a b coin rest k
                pure (na :: p.1, p.2) : Option (List NodeGene × Nat))
            | false, true => do
                let p ← pickHiddenNodes a b coin rest k
                pure (nb :: p.1, p.2)
            | true, true => do
                let p ← pickHiddenNodes a b coin rest (k + 1)
                pure ((if coin k then na else nb) :: p.1, p.2)
            | false, false => none) = some (res, k') := h
          rcases hka : na.kind == NodeKind.Hidden with _ | _ <;>
            rcases hkb : nb.kind == NodeKind.Hidden with _ | _ <;>
            rw [hka, hkb] at h
          · exact Option.noConfusion h
          · exact hcons nb k h
          · exact hcons na k h
          · exact hcons (if coin k then na else nb) (k + 1) h

theorem pickOutputNodes_length {a b : Genome} {coin : Nat → Bool} :
    ∀ (L : List Nat) (k : Nat) (res : List NodeGene) (k' : Nat),
      pickOutputNodes a b coin L k = some (res, k') → res.length = L.length := by
  intro L
  induction L with
  | nil =>
      intro k res k' h
      rw [pickOutputNodes] at h
      have h' : (([], k) : List NodeGene × Nat) = (res, k') :=
        Option.some_injective _ h
      have h1 : ([] : List NodeGene) = res := congrArg Prod.fst h'
      rw [← h1]
      rfl
  | cons i rest ih =>
      intro k res k' h
      rw [pickOutputNodes] at h
      have hcons : ∀ (o : Option NodeGene),
          (do
            let node ← o
            let p ← pickOutputNodes a b coin rest (k + 1)
            pure (node :: p.1, p.2) : Option (List NodeGene × Nat))
              = some (res, k') →
          res.length = (i :: rest).length := by
        intro o hdo
        obtain ⟨node, hnode, hdo⟩ := Option.bind_eq_some.mp hdo
        obtain ⟨⟨l, k''⟩, hl, hdo⟩ := Option.bind_eq_some.mp hdo
        have h' : (node :: l, k'') = (res, k') := Option.some_injective _ hdo
        have h1 : node :: l = res := congrArg Prod.fst h'
        rw [← h1]
        simp [ih (k + 1) l k'' hl]
      by_cases hcoin : coin k = true
      · rw [if_pos hcoin] at h
        exact hcons _ h
      · rw [if_neg hcoin] at h
        exact hcons _ h

theorem nodeCountTarget_ge_min (la lb : Nat) (fa fb : Rat) (nd : Nat) :
    min la lb ≤ nodeCountTarget la lb fa fb nd := by
  rw [nodeCountTarget]
  by_cases heq : abs (fa - fb) < epsF
  · rw [if_pos heq]
    by_cases hd : (max la lb - min la lb == 0) = true
    · rw [if_pos hd]
      omega
    · rw [if_neg hd]
      omega
  · rw [if_neg heq]
    by_cases hfa : fa > fb
    · rw [if_pos hfa]
      omega
    · rw [if_neg hfa]
      omega

theorem nodeCountTarget_equal_diff {la lb : Nat} {fa fb : Rat} (nd : Nat)
    (heq : abs (fa - fb) < epsF) (hne : la ≠ lb) :
    nodeCountTarget la lb fa fb nd
      = min la lb + nd % (max la lb - min la lb) := by
  rw [nodeCountTarget, if_pos heq]
  have hd : max la lb - min la lb ≠ 0 := by omega
  rw [if_neg (by simpa using hd)]

theorem nodeCountTarget_neq {la lb : Nat} {fa fb : Rat} (nd : Nat)
    (heq : ¬ abs (fa - fb) < epsF) :
    nodeCountTarget la lb fa fb nd = if fa > fb then la else lb := by
  rw [nodeCountTarget, if_neg heq]

theorem crossover_length {a b : Genome} {fa fb : Rat} {coin : Nat → Bool}
    {nd : Nat} {child : Genome}
    (hla : a.inputs + a.outputs ≤ a.node_genes.length)
    (hlb : b.inputs + b.outputs ≤ b.node_genes.length)
    (hc : crossover a fa b fb coin nd = some child) :
    child.node_genes.length
      = nodeCountTarget a.node_genes.length b.node_genes.length fa fb nd := by
  obtain ⟨inputNodes, hiddenNodes, outputNodes, k1, k2, hin, hhid, hout, hch,
    hIeq, hOeq, -⟩ := crossover_inv hc
  have h1 : inputNodes.length = a.inputs := by
    have := mapM_get?_length (List.range a.inputs) inputNodes hin
    simpa using this
  have h2 : hiddenNodes.length
      = nodeCountTarget a.node_genes.length b.node_genes.length fa fb nd
        - a.outputs - a.inputs := by
    have := pickHiddenNodes_length _ _ _ _ hhid
    simpa using this
  have h3 : outputNodes.length = a.outputs := by
    have := pickOutputNodes_length _ _ _ _ hout
    simpa using this
  have hmin : a.inputs + a.outputs
      ≤ min a.node_genes.length b.node_genes.length := by
    omega
  have hge := nodeCountTarget_ge_min a.node_genes.length b.node_genes.length
    fa fb nd
  rw [hch]
  show (inputNodes ++ hiddenNodes ++ outputNodes).length = _
  rw [List.length_append, List.length_append, h1, h2, h3]
  omega

theorem crossover_unmatched_mem {a b : Genome} {fa fb : Rat}
    {coin : Nat → Bool} {nd : Nat} {child : Genome} {inn : Nat}
    (hndA : (innovationsOf a.connection_genes).Nodup)
    (hndB : (innovationsOf b.connection_genes).Nodup)
    (hx : (inn ∈ innovationsOf a.connection_genes
            ∧ inn ∉ innovationsOf b.connection_genes)
        ∨ (inn ∉ innovationsOf a.connection_genes
            ∧ inn ∈ innovationsOf b.connection_genes))
    (hc : crossover a fa b fb coin nd = some child) :
    inn ∈ innovationsOf child.connection_genes ↔
      (if fa > fb then inn ∈ innovationsOf a.connection_genes
       else inn ∈ innovationsOf b.connection_genes) := by
  obtain ⟨iN, hN, oN, k1, k2, -, -, -, hch, -, -, -⟩ := crossover_inv hc
  have hL : innovationsOf (a.connection_genes ++ b.connection_genes)
      = innovationsOf a.connection_genes ++ innovationsOf b.connection_genes :=
    List.map_append _ _ _
  set L := innovationsOf (a.connection_genes ++ b.connection_genes) with hLdef
  set F := occurrenceFlags L with hFdef
  have hinnL : inn ∈ L := by
    rw [hL, List.mem_append]
    rcases hx with ⟨hA, -⟩ | ⟨-, hB⟩
    · exact Or.inl hA
    · exact Or.inr hB
  have hkeys : inn ∈ F.map Prod.fst := (occFlags_mem_keys L inn).mpr hinnL
  obtain ⟨p, hpF, hp1⟩ := List.mem_map.mp hkeys
  have hcount : L.count inn = 1 := by
    rw [hL, List.count_append]
    have hA1 : (innovationsOf a.connection_genes).count inn ≤ 1 :=
      List.nodup_iff_count_le_one.mp hndA inn
    have hB1 : (innovationsOf b.connection_genes).count inn ≤ 1 :=
      List.nodup_iff_count_le_one.mp hndB inn
    rcases hx with ⟨hA, hB⟩ | ⟨hA, hB⟩
    · have : 1 ≤ (innovationsOf a.connection_genes).count inn :=
        List.one_le_count_iff.mpr hA
      have hB0 : (innovationsOf b.connection_genes).count inn = 0 :=
        List.count_eq_zero.mpr hB
      omega
    · have : 1 ≤ (innovationsOf b.connection_genes).count inn :=
        List.one_le_count_iff.mpr hB
      have hA0 : (innovationsOf a.connection_genes).count inn = 0 :=
        List.count_eq_zero.mpr hA
      omega
  have hflagF : p.2 = false := by
    have := occFlags_flag hpF
    rw [hp1, hcount] at this
    rcases hb : p.2 with _ | _
    · rfl
    · exact absurd (this.mp hb) (by omega)
  have hpF' : (inn, false) ∈ F := by
    have : p = (inn, false) := by
      rw [← hp1, ← hflagF]
    rw [← this]
    exact hpF
  have hmem := @connPhase_unmatched_mem a b fa fb coin inn
    hx F (occFlags_keys_nodup L) hpF' k2
  rw [hch]
  show inn ∈ innovationsOf (sortConns (connPhase a b fa fb coin F k2)) ↔ _
  rw [← hmem]
  constructor
  · intro h
    obtain ⟨c, hcmem, hcinn⟩ := List.mem_map.mp h
    exact List.mem_map.mpr ⟨c, mem_sortConns.mp hcmem, hcinn⟩
  · intro h
    obtain ⟨c, hcmem, hcinn⟩ := List.mem_map.mp h
    exact List.mem_map.mpr ⟨c, mem_sortConns.mpr hcmem, hcinn⟩

/-- C5 (amended): in `crossover`, a connection gene whose innovation number
is present in exactly one parent is inherited deterministically: when
`fitness_a > fitness_b` it is kept exactly when it comes from parent A, and
otherwise — including every tie, with or without the `EPSILON` tolerance —
exactly when it comes from parent B.  No coin is flipped for unmatched
genes; ties do not inherit them with probability 0.5 (see the
counterexample). -/
theorem c5_crossover_unmatched (a b : Genome) (fa fb : Rat)
    (coin : Nat → Bool) (nd : Nat) (child : Genome) (inn : Nat)
    (hndA : (innovationsOf a.connection_genes).Nodup)
    (hndB : (innovationsOf b.connection_genes).Nodup)
    (hx : (inn ∈ innovationsOf a.connection_genes
            ∧ inn ∉ innovationsOf b.connection_genes)
        ∨ (inn ∉ innovationsOf a.connection_genes
            ∧ inn ∈ innovationsOf b.connection_genes))
    (hc : crossover a fa b fb coin nd = some child) :
    inn ∈ innovationsOf child.connection_genes ↔
      (if fa > fb then inn ∈ innovationsOf a.connection_genes
       else inn ∈ innovationsOf b.connection_genes) :=
  crossover_unmatched_mem hndA hndB hx hc

/-- C5 counterexample: parents with exactly equal fitness 1; the gene with
innovation 10 exists only in parent A.  The claim says it is inherited with
probability 0.5, but for every random stream the child lacks it (the source
drops A-only genes and keeps B-only genes whenever
`fitness_a <= fitness_b`); the crossover itself does succeed. -/
theorem c5_counterexample :
    (10 ∈ innovationsOf pA5.connection_genes
      ∧ 10 ∉ innovationsOf pB5.connection_genes
      ∧ crossover pA5 1 pB5 1 (fun _ => true) 0 =
          some ⟨1, 1, [], [mkNode NodeKind.Input, mkNode NodeKind.Output]⟩)
    ∧ ¬ ∃ (coin : Nat → Bool) (nd : Nat) (child : Genome),
        crossover pA5 1 pB5 1 coin nd = some child
          ∧ 10 ∈ innovationsOf child.connection_genes := by
  constructor
  · refine ⟨by decide, by decide, ?_⟩
    norm_num [crossover, nodeCountTarget, epsF, pA5, pB5, pickHiddenNodes,
      pickOutputNodes, connPhase, pickConnForInnovation, occurrenceFlags,
      markSeen, lookupFlag, innovationsOf, sortConns, insertConn, mkNode,
      List.range_succ, List.mapM.loop]
  · rintro ⟨coin, nd, child, hc, hmem⟩
    have h := @crossover_unmatched_mem pA5 pB5 1 1 coin nd child 10
      (by decide) (by decide)
      (Or.inl ⟨by decide, by decide⟩) hc
    rw [if_neg (by norm_num)] at h
    exact absurd (h.mp hmem) (by decide)

/-- C5 witness: with parent A strictly fitter (fitness 2 against 1), the
A-only gene with innovation 10 is inherited, as the amended rule demands. -/
theorem c5_witness :
    10 ∈ innovationsOf (Genome.mk 1 1
        [⟨0, 1, 0, false, 10⟩]
        [mkNode NodeKind.Input, mkNode NodeKind.Output]).connection_genes ↔
      (if (2 : Rat) > 1 then 10 ∈ innovationsOf pA5.connection_genes
       else 10 ∈ innovationsOf pB5.connection_genes) := by
  refine c5_crossover_unmatched pA5 pB5 2 1 (fun _ => true) 0 _ 10 (by decide)
    (by decide) (Or.inl ⟨by decide, by decide⟩) ?_
  norm_num [crossover, nodeCountTarget, epsF, pA5, pB5, pickHiddenNodes,
    pickOutputNodes, connPhase, pickConnForInnovation, occurrenceFlags,
    markSeen, lookupFlag, innovationsOf, sortConns, insertConn, mkNode,
    List.range_succ, List.mapM.loop]

/-- C6 (amended): the child's node count equals the sampled target count:
with fitnesses equal within `EPSILON` and differing parent sizes it lies in
`[min, max − 1]` — `max` itself is never produced, because the source
computes `node_min + random % (node_max − node_min)` — and every count in
`[min, max − 1]` is produced for some draw; with distinct fitnesses it is
the fitter parent's node count. -/
theorem c6_crossover_node_count (a b : Genome) (fa fb : Rat)
    (coin : Nat → Bool) (nd : Nat) (child : Genome)
    (hla : a.inputs + a.outputs ≤ a.node_genes.length)
    (hlb : b.inputs + b.outputs ≤ b.node_genes.length)
    (hc : crossover a fa b fb coin nd = some child) :
    child.node_genes.length
        = nodeCountTarget a.node_genes.length b.node_genes.length fa fb nd
      ∧ (abs (fa - fb) < epsF → a.node_genes.length ≠ b.node_genes.length →
          (min a.node_genes.length b.node_genes.length
              ≤ child.node_genes.length
            ∧ child.node_genes.length
                ≤ max a.node_genes.length b.node_genes.length - 1
            ∧ ∀ m, min a.node_genes.length b.node_genes.length ≤ m →
                m ≤ max a.node_genes.length b.node_genes.length - 1 →
                ∃ nd', nodeCountTarget a.node_genes.length b.node_genes.length
                  fa fb nd' = m))
      ∧ (¬ abs (fa - fb) < epsF →
          child.node_genes.length
            = if fa > fb then a.node_genes.length else b.node_genes.length) := by
  have hlen := crossover_length hla hlb hc
  refine ⟨hlen, ?_, ?_⟩
  · intro heq hne
    have hval := @nodeCountTarget_equal_diff a.node_genes.length
      b.node_genes.length fa fb nd heq hne
    have hd : 0 < max a.node_genes.length b.node_genes.length
        - min a.node_genes.length b.node_genes.length := by
      omega
    have hmod := Nat.mod_lt nd hd
    refine ⟨by omega, by omega, ?_⟩
    intro m hm1 hm2
    refine ⟨m - min a.node_genes.length b.node_genes.length, ?_⟩
    rw [nodeCountTarget_equal_diff _ heq hne]
    have : (m - min a.node_genes.length b.node_genes.length)
        % (max a.node_genes.length b.node_genes.length
          - min a.node_genes.length b.node_genes.length)
        = m - min a.node_genes.length b.node_genes.length :=
      Nat.mod_eq_of_lt (by omega)
    omega
  · intro hneq
    rw [hlen, nodeCountTarget_neq nd hneq]

/-- C6 counterexample: parents with 5 and 7 nodes and exactly equal
fitnesses.  The claim says the child's node count ranges over `[5, 7]` with
7 produced for some draw; in fact draws 0 and 1 give 5 and 6 and no draw
ever gives 7, since the count is `5 + draw % 2`. -/
theorem c6_counterexample :
    (abs ((1 : Rat) - 1) < epsF
      ∧ pA6.node_genes.length = 5 ∧ pB6.node_genes.length = 7
      ∧ crossover pA6 1 pB6 1 (fun _ => true) 0 =
          some ⟨1, 1, [], [mkNode NodeKind.Input, mkNode NodeKind.Hidden,
            mkNode NodeKind.Hidden, mkNode NodeKind.Hidden,
            mkNode NodeKind.Output]⟩
      ∧ crossover pA6 1 pB6 1 (fun _ => true) 1 =
          some ⟨1, 1, [], [mkNode NodeKind.Input, mkNode NodeKind.Hidden,
            mkNode NodeKind.Hidden, mkNode NodeKind.Hidden,
            mkNode NodeKind.Hidden, mkNode NodeKind.Output]⟩)
    ∧ ¬ ∃ (coin : Nat → Bool) (nd : Nat) (child : Genome),
        crossover pA6 1 pB6 1 coin nd = some child
          ∧ child.node_genes.length = 7 := by
  constructor
  · refine ⟨by norm_num [epsF], by decide, by decide, ?_, ?_⟩
    · norm_num [crossover, nodeCountTarget, epsF, pA6, pB6, pickHiddenNodes,
        pickOutputNodes, connPhase, pickConnForInnovation, occurrenceFlags,
        markSeen, lookupFlag, innovationsOf, sortConns, insertConn, mkNode,
        List.range_succ, List.range'_succ, List.mapM.loop]
    · norm_num [crossover, nodeCountTarget, epsF, pA6, pB6, pickHiddenNodes,
        pickOutputNodes, connPhase, pickConnForInnovation, occurrenceFlags,
        markSeen, lookupFlag, innovationsOf, sortConns, insertConn, mkNode,
        List.range_succ, List.range'_succ, List.mapM.loop,
        show (NodeKind.Output == NodeKind.Hidden) = false from rfl]
  · rintro ⟨coin, nd, child, hc, h7⟩
    have hlen := crossover_length (by decide) (by decide) hc
    rw [h7] at hlen
    rw [nodeCountTarget_equal_diff nd (by norm_num [epsF]) (by decide)] at hlen
    simp only [show pA6.node_genes.length = 5 from rfl,
      show pB6.node_genes.length = 7 from rfl] at hlen
    have : nd % (max 5 7 - min 5 7) < max 5 7 - min 5 7 :=
      Nat.mod_lt nd (by decide)
    omega

/-- C6 witness: at parents of 5 and 7 nodes with equal fitness and draw 0,
the child has `5 + 0 % 2 = 5` nodes, the bounds `5 ≤ 5 ≤ 6` hold, and the
count 6 is also produced (by draw 1). -/
theorem c6_witness :
    (Genome.mk 1 1 [] [mkNode NodeKind.Input, mkNode NodeKind.Hidden,
        mkNode NodeKind.Hidden, mkNode NodeKind.Hidden,
        mkNode NodeKind.Output]).node_genes.length
      = nodeCountTarget pA6.node_genes.length pB6.node_genes.length 1 1 0
    ∧ ∃ nd', nodeCountTarget pA6.node_genes.length pB6.node_genes.length
        1 1 nd' = 6 := by
  have h := c6_crossover_node_count pA6 pB6 1 1 (fun _ => true) 0
    ⟨1, 1, [], [mkNode NodeKind.Input, mkNode NodeKind.Hidden,
      mkNode NodeKind.Hidden, mkNode NodeKind.Hidden, mkNode NodeKind.Output]⟩
    (by decide) (by decide) (by
      norm_num [crossover, nodeCountTarget, epsF, pA6, pB6, pickHiddenNodes,
        pickOutputNodes, connPhase, pickConnForInnovation, occurrenceFlags,
        markSeen, lookupFlag, innovationsOf, sortConns, insertConn, mkNode,
        List.range_succ, List.range'_succ, List.mapM.loop])
  exact ⟨h.1, (h.2.1 (by norm_num [epsF]) (by decide)).2.2 6 (by decide)
    (by decide)⟩

/-! ### Compatibility distance (C7) -/

theorem occFlags_both {a b : List ConnectionGene}
    (hndA : (innovationsOf a).Nodup) (hndB : (innovationsOf b).Nodup)
    {p : Nat × Bool}
    (hp : p ∈ occurrenceFlags (innovationsOf a ++ innovationsOf b)) :
    (p.2 = true ↔ (p.1 ∈ innovationsOf a ∧ p.1 ∈ innovationsOf b))
      ∧ p.1 ∈ innovationsOf a ++ innovationsOf b := by
  have hmemL : p.1 ∈ innovationsOf a ++ innovationsOf b := by
    rw [← occFlags_mem_keys]
    exact List.mem_map_of_mem Prod.fst hp
  have hflag := occFlags_flag hp
  rw [List.count_append] at hflag
  have hA1 : (innovationsOf a).count p.1 ≤ 1 :=
    List.nodup_iff_count_le_one.mp hndA p.1
  have hB1 : (innovationsOf b).count p.1 ≤ 1 :=
    List.nodup_iff_count_le_one.mp hndB p.1
  refine ⟨?_, hmemL⟩
  rw [hflag]
  constructor
  · intro h2
    constructor
    · rw [← List.one_le_count_iff]
      omega
    · rw [← List.one_le_count_iff]
      omega
  · rintro ⟨hA, hB⟩
    have := List.one_le_count_iff.mpr hA
    have := List.one_le_count_iff.mpr hB
    omega

theorem filter_length_map_fst {F : List (Nat × Bool)} {q : Nat × Bool → Bool}
    {pred : Nat → Bool} (h : ∀ p ∈ F, q p = pred p.1) :
    (F.filter q).length = ((F.map Prod.fst).filter pred).length := by
  induction F with
  | nil => rfl
  | cons p rest ih =>
      rw [List.filter_cons, List.map_cons, List.filter_cons,
        h p (List.mem_cons_self p rest)]
      have ihr := ih (fun r hr => h r (List.mem_cons_of_mem p hr))
      by_cases hp : pred p.1 = true
      · simp [hp, ihr]
      · simp [hp, ihr]

theorem filter_snd_map_fst {F : List (Nat × Bool)} {pred : Nat → Bool}
    (h : ∀ p ∈ F, p.2 = pred p.1) :
    (F.filter (fun p => p.2)).map Prod.fst = (F.map Prod.fst).filter pred := by
  induction F with
  | nil => rfl
  | cons p rest ih =>
      rw [List.filter_cons, List.map_cons, List.filter_cons,
        ← h p (List.mem_cons_self p rest)]
      have ihr := ih (fun r hr => h r (List.mem_cons_of_mem p hr))
      by_cases hp : p.2 = true
      · simp [hp, ihr]
      · simp only [Bool.not_eq_true] at hp
        simp [hp, ihr]

theorem splitConnections_spec {a b : List ConnectionGene} :
    ∀ (F : List (Nat × Bool)),
      (∀ p ∈ F,
        (p.2 = true →
          (a.find? (fun c => c.innovation == p.1)).isSome = true
            ∧ (b.find? (fun c => c.innovation == p.1)).isSome = true)
        ∧ (p.2 = false →
          ((a ++ b).find? (fun c => c.innovation == p.1)).isSome = true)) →
      ∃ dis com, splitConnections a b F = some (dis, com)
        ∧ dis.length = (F.filter (fun p => !p.2)).length
        ∧ com = (F.filter (fun p => p.2)).filterMap (fun p =>
            match a.find? (fun c => c.innovation == p.1),
                b.find? (fun c => c.innovation == p.1) with
            | some ca, some cb => some (ca, cb)
            | _, _ => none) := by
  intro F
  induction F with
  | nil =>
      intro _
      exact ⟨[], [], rfl, rfl, rfl⟩
  | cons p rest ih =>
      intro h
      obtain ⟨dis, com, hsplit, hlen, hcom⟩ :=
        ih (fun r hr => h r (List.mem_cons_of_mem p hr))
      obtain ⟨inn, fl⟩ := p
      cases fl with
      | false =>
        have hfind := (h (inn, false) (List.mem_cons_self (inn, false) rest)).2 rfl
        obtain ⟨c, hc⟩ := Option.isSome_iff_exists.mp hfind
        have hc' : ((a ++ b).find? (fun d => d.innovation == inn)) = some c := hc
        refine ⟨c :: dis, com, ?_, ?_, ?_⟩
        · rw [splitConnections, hsplit]
          show ((a ++ b).find? (fun d => d.innovation == inn)).bind
            (fun c' => some (c' :: dis, com)) = some (c :: dis, com)
          rw [hc']
          rfl
        · simp [List.filter_cons, hlen]
        · simp [List.filter_cons, hcom]
      | true =>
        have hfind := (h (inn, true) (List.mem_cons_self (inn, true) rest)).1 rfl
        obtain ⟨ca, hca⟩ := Option.isSome_iff_exists.mp hfind.1
        obtain ⟨cb, hcb⟩ := Option.isSome_iff_exists.mp hfind.2
        have hca' : (a.find? (fun d => d.innovation == inn)) = some ca := hca
        have hcb' : (b.find? (fun d => d.innovation == inn)) = some cb := hcb
        refine ⟨dis, (ca, cb) :: com, ?_, ?_, ?_⟩
        · rw [splitConnections, hsplit]
          show (a.find? (fun d => d.innovation == inn)).bind (fun ca' =>
            (b.find? (fun d => d.innovation == inn)).bind (fun cb' =>
              some (dis, (ca', cb') :: com))) = some (dis, (ca, cb) :: com)
          rw [hca', hcb']
          rfl
        · simp [List.filter_cons, hlen]
        · simp only [List.filter_cons]
          simp [List.filterMap_cons, hca', hcb', hcom]

theorem sum_common_over_keys (cfg : Configuration)
    (a b : List ConnectionGene) :
    ∀ (K : List Nat),
      (∀ n ∈ K, (a.find? (fun c => c.innovation == n)).isSome = true
        ∧ (b.find? (fun c => c.innovation == n)).isSome = true) →
      ((K.filterMap (fun n =>
          match a.find? (fun c => c.innovation == n),
              b.find? (fun c => c.innovation == n) with
          | some ca, some cb => some (ca, cb)
          | _, _ => none)).map (commonPairDistance cfg)).sum
        = cfg.distance_connection_disabled_coefficient
            * ((K.filter (fun n =>
                match a.find? (fun c => c.innovation == n),
                    b.find? (fun c => c.innovation == n) with
                | some ca, some cb => ca.disabled != cb.disabled
                | _, _ => false)).length : Rat)
          + cfg.distance_connection_weight_coeficcient
            * ((K.map (fun n =>
                match a.find? (fun c => c.innovation == n),
                    b.find? (fun c => c.innovation == n) with
                | some ca, some cb => abs (ca.weight - cb.weight)
                | _, _ => 0)).sum) := by
  intro K
  induction K with
  | nil =>
      intro _
      simp
  | cons n rest ih =>
      intro h
      have hn := h n (List.mem_cons_self n rest)
      obtain ⟨ca, hca⟩ := Option.isSome_iff_exists.mp hn.1
      obtain ⟨cb, hcb⟩ := Option.isSome_iff_exists.mp hn.2
      have ihr := ih (fun m hm => h m (List.mem_cons_of_mem n hm))
      rw [List.filterMap_cons, List.filter_cons, List.map_cons, hca, hcb]
      simp only [List.map_cons, List.sum_cons, ihr]
      rw [commonPairDistance]
      by_cases hflip : (ca.disabled != cb.disabled) = true
      · rw [if_pos hflip, if_pos hflip]
        simp only [List.length_cons]
        push_cast
        ring
      · rw [if_neg hflip, if_neg hflip]
        push_cast
        ring

theorem contains_iff_mem {l : List Nat} {x : Nat} :
    l.contains x = true ↔ x ∈ l :=
  List.elem_iff

/-- C7 (amended): with duplicate-free innovation numbers,
`are_genomes_related` holds exactly when both connection lists are not both
empty and the claimed distance `δ` (computed with `N = max(|A|, |B|)`) is at
most the threshold.  When both lists are empty the source divides `0.0` by
`0.0`, the NaN comparison fails, and the genomes are never related — there
is no `N = 1` special case (see the counterexample). -/
theorem c7_compatibility (cfg : Configuration) (a b : CoreGenome)
    (hndA : (innovationsOf a.connections).Nodup)
    (hndB : (innovationsOf b.connections).Nodup) :
    are_genomes_related cfg a b
      = some (decide (0 < max a.connections.length b.connections.length)
          && decide (claimDelta cfg a b ≤ cfg.compatibility_threshold)) := by
  by_cases hmax : max a.connections.length b.connections.length = 0
  · have ha0 : a.connections = [] := List.length_eq_zero.mp (by omega)
    have hb0 : b.connections = [] := List.length_eq_zero.mp (by omega)
    rw [are_genomes_related, ha0, hb0]
    norm_num [innovationsOf, occurrenceFlags, splitConnections]
  · have hcond : ∀ p ∈ occurrenceFlags
        (innovationsOf a.connections ++ innovationsOf b.connections),
        (p.2 = true →
          (a.connections.find? (fun c => c.innovation == p.1)).isSome = true
            ∧ (b.connections.find? (fun c => c.innovation == p.1)).isSome = true)
        ∧ (p.2 = false →
          ((a.connections ++ b.connections).find?
            (fun c => c.innovation == p.1)).isSome = true) := by
      intro p hp
      obtain ⟨hboth, hmemL⟩ := occFlags_both hndA hndB hp
      constructor
      · intro ht
        obtain ⟨hA, hB⟩ := hboth.mp ht
        exact ⟨find?_innov_isSome.mpr hA, find?_innov_isSome.mpr hB⟩
      · intro _
        have : p.1 ∈ innovationsOf (a.connections ++ b.connections) := by
          rw [innovationsOf, List.map_append]
          exact hmemL
        exact find?_innov_isSome.mpr this
    obtain ⟨dis, com, hsplit, hlen, hcom⟩ := splitConnections_spec _ hcond
    have hpt : ∀ p ∈ occurrenceFlags
        (innovationsOf a.connections ++ innovationsOf b.connections),
        p.2 = ((innovationsOf a.connections).contains p.1
          && (innovationsOf b.connections).contains p.1) := by
      intro p hp
      obtain ⟨hboth, hmemL⟩ := occFlags_both hndA hndB hp
      rcases hA : (innovationsOf a.connections).contains p.1 with _ | _ <;>
        rcases hB : (innovationsOf b.connections).contains p.1 with _ | _
      · rcases hp2 : p.2 with _ | _
        · rfl
        · obtain ⟨hA', -⟩ := hboth.mp hp2
          rw [contains_iff_mem.mpr hA'] at hA
          exact absurd hA (by simp)
      · rcases hp2 : p.2 with _ | _
        · rfl
        · obtain ⟨hA', -⟩ := hboth.mp hp2
          rw [contains_iff_mem.mpr hA'] at hA
          exact absurd hA (by simp)
      · rcases hp2 : p.2 with _ | _
        · rfl
        · obtain ⟨-, hB'⟩ := hboth.mp hp2
          rw [contains_iff_mem.mpr hB'] at hB
          exact absurd hB (by simp)
      · rcases hp2 : p.2 with _ | _
        · exfalso
          have hp2' : p.2 = true := by
            rw [hboth]
            constructor
            · exact contains_iff_mem.mp hA
            · exact contains_iff_mem.mp hB
          rw [hp2] at hp2'
          exact absurd hp2' (by simp)
        · rfl
    have hptneg : ∀ p ∈ occurrenceFlags
        (innovationsOf a.connections ++ innovationsOf b.connections),
        (!p.2) = ((innovationsOf a.connections).contains p.1
          != (innovationsOf b.connections).contains p.1) := by
      intro p hp
      obtain ⟨hboth, hmemL⟩ := occFlags_both hndA hndB hp
      rw [List.mem_append] at hmemL
      rw [hpt p hp]
      rcases hA : (innovationsOf a.connections).contains p.1 with _ | _ <;>
        rcases hB : (innovationsOf b.connections).contains p.1 with _ | _
      · exfalso
        rcases hmemL with hm | hm
        · rw [contains_iff_mem.mpr hm] at hA
          exact absurd hA (by simp)
        · rw [contains_iff_mem.mpr hm] at hB
          exact absurd hB (by simp)
      · rfl
      · rfl
      · rfl
    have hD : dis.length
        = claimDisjointCount a.connections b.connections := by
      rw [hlen, claimDisjointCount, allInnovations]
      exact filter_length_map_fst hptneg
    have hK : (List.filter (fun p => p.2) (occurrenceFlags
          (innovationsOf a.connections ++ innovationsOf b.connections))).map
          Prod.fst
        = claimMatchingKeys a.connections b.connections := by
      rw [claimMatchingKeys, allInnovations]
      exact filter_snd_map_fst hpt
    have hKcond : ∀ n ∈ claimMatchingKeys a.connections b.connections,
        (a.connections.find? (fun c => c.innovation == n)).isSome = true
          ∧ (b.connections.find? (fun c => c.innovation == n)).isSome = true := by
      intro n hn
      rw [claimMatchingKeys, List.mem_filter] at hn
      obtain ⟨-, hcontains⟩ := hn
      rw [Bool.and_eq_true] at hcontains
      exact ⟨find?_innov_isSome.mpr (contains_iff_mem.mp hcontains.1),
        find?_innov_isSome.mpr (contains_iff_mem.mp hcontains.2)⟩
    have hcom' : com = (claimMatchingKeys a.connections
        b.connections).filterMap (fun n =>
          match a.connections.find? (fun c => c.innovation == n),
              b.connections.find? (fun c => c.innovation == n) with
          | some ca, some cb => some (ca, cb)
          | _, _ => none) := by
      rw [hcom, ← hK, List.filterMap_map]
      rfl
    have hsum : (com.map (commonPairDistance cfg)).sum
        = cfg.distance_connection_disabled_coefficient
            * (claimFlippedCount a.connections b.connections : Rat)
          + cfg.distance_connection_weight_coeficcient
            * claimWeightSum a.connections b.connections := by
      rw [hcom']
      rw [sum_common_over_keys cfg a.connections b.connections _ hKcond]
      rw [claimFlippedCount, claimWeightSum]
    have hbeq : ¬ ((max a.connections.length b.connections.length == 0)
        = true) := by
      simpa using hmax
    rw [are_genomes_related, hsplit]
    show (if (max a.connections.length b.connections.length == 0) = true
        then (some false : Option Bool)
        else some (decide (((a.nodes.zip b.nodes).map
            (nodePairDistance cfg)).sum
          + ((com.map (commonPairDistance cfg)).sum
              + (dis.length : Rat)
                * cfg.distance_connection_disjoint_coefficient)
            / ((max a.connections.length b.connections.length : Nat) : Rat)
          ≤ cfg.compatibility_threshold))) = _
    rw [if_neg hbeq]
    have h0 : decide (0 < max a.connections.length b.connections.length)
        = true := decide_eq_true (Nat.pos_of_ne_zero hmax)
    rw [h0, Bool.true_and]
    have hdist : ((a.nodes.zip b.nodes).map (nodePairDistance cfg)).sum
        + ((com.map (commonPairDistance cfg)).sum
            + (dis.length : Rat) * cfg.distance_connection_disjoint_coefficient)
          / ((max a.connections.length b.connections.length : Nat) : Rat)
        = claimDelta cfg a b := by
      rw [hsum, hD, claimDelta]
      rw [if_neg hmax, Nat.cast_max]
      ring
    rw [hdist]

/-- C7 counterexample: two genomes with identical single nodes and no
connections.  The claim takes `N = 1` when both lists are empty, giving
`δ = 0 ≤ 3`, i.e. related; but the source computes `0.0 / 0.0 = NaN` and
returns not-related. -/
theorem c7_counterexample :
    are_genomes_related cfgUnit cgEmptyA cgEmptyB = some false
      ∧ claimDelta cfgUnit cgEmptyA cgEmptyB
          ≤ cfgUnit.compatibility_threshold := by
  constructor
  · rfl
  · norm_num [claimDelta, claimDisjointCount, claimWeightSum,
      claimFlippedCount, claimMatchingKeys, allInnovations, occurrenceFlags,
      innovationsOf, nodePairDistance, cfgUnit, cgEmptyA, cgEmptyB, mkNode]

/-- C7 witness: one matching connection with weight difference 2 gives
`δ = 2 ≤ 3`; the source agrees with the claimed formula and reports the
genomes as related. -/
theorem c7_witness :
    are_genomes_related cfgUnit cgConnA cgConnB = some true
      ∧ claimDelta cfgUnit cgConnA cgConnB
          ≤ cfgUnit.compatibility_threshold := by
  have hδ : claimDelta cfgUnit cgConnA cgConnB
      ≤ cfgUnit.compatibility_threshold := by
    norm_num [claimDelta, claimDisjointCount, claimWeightSum,
      claimFlippedCount, claimMatchingKeys, allInnovations, occurrenceFlags,
      markSeen, lookupFlag, innovationsOf, nodePairDistance, cfgUnit,
      cgConnA, cgConnB, mkNode, List.count_cons, abs_le]
  have h := c7_compatibility cfgUnit cgConnA cgConnB (by decide) (by decide)
  rw [h]
  refine ⟨?_, hδ⟩
  rw [decide_eq_true (show (0 : Nat) <
    max cgConnA.connections.length cgConnB.connections.length by decide)]
  rw [decide_eq_true hδ]
  rfl

theorem are_related_isSome (cfg : Configuration) (a b : CoreGenome)
    (hndA : (innovationsOf a.connections).Nodup)
    (hndB : (innovationsOf b.connections).Nodup) :
    (are_genomes_related cfg a b).isSome = true := by
  have hcond : ∀ p ∈ occurrenceFlags
      (innovationsOf a.connections ++ innovationsOf b.connections),
      (p.2 = true →
        (a.connections.find? (fun c => c.innovation == p.1)).isSome = true
          ∧ (b.connections.find? (fun c => c.innovation == p.1)).isSome = true)
      ∧ (p.2 = false →
        ((a.connections ++ b.connections).find?
          (fun c => c.innovation == p.1)).isSome = true) := by
    intro p hp
    obtain ⟨hboth, hmemL⟩ := occFlags_both hndA hndB hp
    constructor
    · intro ht
      obtain ⟨hA, hB⟩ := hboth.mp ht
      exact ⟨find?_innov_isSome.mpr hA, find?_innov_isSome.mpr hB⟩
    · intro _
      have : p.1 ∈ innovationsOf (a.connections ++ b.connections) := by
        rw [innovationsOf, List.map_append]
        exact hmemL
      exact find?_innov_isSome.mpr this
  obtain ⟨dis, com, hsplit, -, -⟩ := splitConnections_spec _ hcond
  rw [are_genomes_related, hsplit]
  show (if (max a.connections.length b.connections.length == 0) = true
      then (some false : Option Bool)
      else some (decide (((a.nodes.zip b.nodes).map
          (nodePairDistance cfg)).sum
        + ((com.map (commonPairDistance cfg)).sum
            + (dis.length : Rat)
              * cfg.distance_connection_disjoint_coefficient)
          / ((max a.connections.length b.connections.length : Nat) : Rat)
        ≤ cfg.compatibility_threshold))).isSome = true
  split
  · rfl
  · rfl

theorem firstRelated_mem {cfg : Configuration}
    {genomes : List (Nat × CoreGenome)} {g : CoreGenome} {sid : Nat} :
    ∀ {species : List (Nat × List Nat)},
      firstRelatedSpecies cfg genomes g species = some (some sid) →
      sid ∈ species.map Prod.fst := by
  intro species
  induction species with
  | nil =>
    intro h
    replace h : (some (none : Option Nat)) = some (some sid) := h
    simp at h
  | cons hd tl ih =>
    intro h
    replace h : (match hd.2.head?.bind (lookupGenome genomes) with
        | none => firstRelatedSpecies cfg genomes g tl
        | some other =>
            match are_genomes_related cfg g other with
            | none => none
            | some true => some (some hd.1)
            | some false => firstRelatedSpecies cfg genomes g tl)
        = some (some sid) := h
    rcases hlk : hd.2.head?.bind (lookupGenome genomes) with _ | other
    · rw [hlk] at h
      replace h : firstRelatedSpecies cfg genomes g tl = some (some sid) := h
      exact List.mem_cons_of_mem _ (ih h)
    · rw [hlk] at h
      replace h : (match are_genomes_related cfg g other with
          | none => (none : Option (Option Nat))
          | some true => some (some hd.1)
          | some false => firstRelatedSpecies cfg genomes g tl)
          = some (some sid) := h
      rcases har : are_genomes_related cfg g other with _ | b
      · rw [har] at h
        replace h : (none : Option (Option Nat)) = some (some sid) := h
        simp at h
      · rw [har] at h
        rcases b with _ | _
        · replace h : firstRelatedSpecies cfg genomes g tl
              = some (some sid) := h
          exact List.mem_cons_of_mem _ (ih h)
        · replace h : some (some hd.1) = some (some sid) := h
          have h2 : hd.1 = sid := Option.some.inj (Option.some.inj h)
          rw [List.map_cons, h2]
          exact List.mem_cons_self _ _

theorem firstRelated_isSome {cfg : Configuration}
    {genomes : List (Nat × CoreGenome)} {g : CoreGenome}
    (hg : (innovationsOf g.connections).Nodup)
    (hall : ∀ p ∈ genomes, (innovationsOf p.2.connections).Nodup) :
    ∀ (species : List (Nat × List Nat)),
      (firstRelatedSpecies cfg genomes g species).isSome = true := by
  intro species
  induction species with
  | nil => rfl
  | cons hd tl ih =>
    show ((match hd.2.head?.bind (lookupGenome genomes) with
        | none => firstRelatedSpecies cfg genomes g tl
        | some other =>
            match are_genomes_related cfg g other with
            | none => none
            | some true => some (some hd.1)
            | some false => firstRelatedSpecies cfg genomes g tl) :
        Option (Option Nat)).isSome = true
    rcases hlk : hd.2.head?.bind (lookupGenome genomes) with _ | other
    · exact ih
    · obtain ⟨m, -, hlg⟩ := Option.bind_eq_some.mp hlk
      simp only [lookupGenome] at hlg
      obtain ⟨p, hfind, hp2⟩ := Option.map_eq_some'.mp hlg
      have hpmem : p ∈ genomes := List.mem_of_find?_eq_some hfind
      have hothernd : (innovationsOf other.connections).Nodup := by
        rw [← hp2]
        exact hall p hpmem
      obtain ⟨b, hb⟩ := Option.isSome_iff_exists.mp
        (are_related_isSome cfg g other hg hothernd)
      show ((match are_genomes_related cfg g other with
          | none => none
          | some true => some (some hd.1)
          | some false => firstRelatedSpecies cfg genomes g tl) :
          Option (Option Nat)).isSome = true
      rw [hb]
      rcases b with _ | _
      · exact ih
      · rfl

theorem pushMember_keys (sp : List (Nat × List Nat)) (sid gid : Nat) :
    (pushMember sp sid gid).map Prod.fst = sp.map Prod.fst := by
  rw [pushMember, List.map_map]
  apply List.map_congr_left
  intro p _
  by_cases h : (p.1 == sid) = true
  · rw [Function.comp_apply, if_pos h]
  · rw [Function.comp_apply, if_neg h]

theorem pushMember_eq_of_not_mem {sp : List (Nat × List Nat)} {sid : Nat}
    (gid : Nat) (h : sid ∉ sp.map Prod.fst) :
    pushMember sp sid gid = sp := by
  induction sp with
  | nil => rfl
  | cons hd tl ih =>
    rw [List.map_cons, List.mem_cons, not_or] at h
    show (if (hd.1 == sid) = true then (hd.1, hd.2 ++ [gid]) else hd)
        :: pushMember tl sid gid = hd :: tl
    have hne2 : ¬ (hd.1 == sid) = true := by
      simp only [beq_iff_eq]
      exact fun he => h.1 he.symm
    rw [ih h.2, if_neg hne2]

theorem pushMember_ne_nil {sp : List (Nat × List Nat)} {sid gid : Nat}
    (h : ∀ s ∈ sp, s.2 ≠ []) :
    ∀ s ∈ pushMember sp sid gid, s.2 ≠ [] := by
  intro s hs
  rw [pushMember, List.mem_map] at hs
  obtain ⟨p, hp, rfl⟩ := hs
  by_cases hc : (p.1 == sid) = true
  · rw [if_pos hc]
    simp
  · rw [if_neg hc]
    exact h p hp

theorem pushMember_join_perm (sid gid : Nat) (sp : List (Nat × List Nat)) :
    (sp.map Prod.fst).Nodup → sid ∈ sp.map Prod.fst →
    ((pushMember sp sid gid).map Prod.snd).flatten.Perm
      (gid :: (sp.map Prod.snd).flatten) := by
  induction sp with
  | nil =>
    intro _ hmem
    exact absurd hmem (by simp)
  | cons hd tl ih =>
    intro hnd hmem
    rw [List.map_cons] at hnd hmem
    have hpc : pushMember (hd :: tl) sid gid
        = (if (hd.1 == sid) = true then (hd.1, hd.2 ++ [gid]) else hd)
          :: pushMember tl sid gid := rfl
    by_cases hc : (hd.1 == sid) = true
    · have hq : hd.1 = sid := by simpa using hc
      have hnotin : sid ∉ tl.map Prod.fst := by
        rw [← hq]
        exact (List.nodup_cons.mp hnd).1
      rw [hpc, if_pos hc, pushMember_eq_of_not_mem gid hnotin]
      rw [List.map_cons, List.flatten_cons, List.map_cons, List.flatten_cons]
      rw [List.append_assoc]
      exact List.perm_middle
    · have hq : hd.1 ≠ sid := by simpa using hc
      have hmem' : sid ∈ tl.map Prod.fst := by
        rcases List.mem_cons.mp hmem with h | h
        · exact absurd h.symm hq
        · exact h
      have hnd' : (tl.map Prod.fst).Nodup := (List.nodup_cons.mp hnd).2
      rw [hpc, if_neg hc]
      rw [List.map_cons, List.flatten_cons, List.map_cons, List.flatten_cons]
      refine ((List.Perm.refl hd.2).append (ih hnd' hmem')).trans ?_
      exact List.perm_middle

theorem speciateLoop_spec (cfg : Configuration)
    (genomes : List (Nat × CoreGenome))
    (hall : ∀ p ∈ genomes, (innovationsOf p.2.connections).Nodup) :
    ∀ (todo : List (Nat × CoreGenome)) (species : List (Nat × List Nat)),
      (∀ p ∈ todo, p ∈ genomes) →
      species.map Prod.fst = List.range species.length →
      (∀ s ∈ species, s.2 ≠ []) →
      ∃ out, speciateLoop cfg genomes todo species = some out
        ∧ out.map Prod.fst = List.range out.length
        ∧ (∀ s ∈ out, s.2 ≠ [])
        ∧ ((out.map Prod.snd).flatten).Perm
            (((species.map Prod.snd).flatten) ++ todo.map Prod.fst) := by
  intro todo
  induction todo with
  | nil =>
    intro species _ hkeys hne
    exact ⟨species, rfl, hkeys, hne, by rw [List.map_nil, List.append_nil]⟩
  | cons hd rest ih =>
    intro species htodo hkeys hne
    have hgmem : hd ∈ genomes := htodo hd (List.mem_cons_self hd rest)
    have hg : (innovationsOf hd.2.connections).Nodup := hall hd hgmem
    obtain ⟨found, hfound⟩ := Option.isSome_iff_exists.mp
      (@firstRelated_isSome cfg genomes hd.2 hg hall species)
    have htodo' : ∀ p ∈ rest, p ∈ genomes :=
      fun p hp => htodo p (List.mem_cons_of_mem hd hp)
    rcases found with _ | sid
    · have hstep : speciateLoop cfg genomes (hd :: rest) species
          = speciateLoop cfg genomes rest
            (species ++ [(species.length, [hd.1])]) := by
        show (firstRelatedSpecies cfg genomes hd.2 species).bind (fun found =>
          match found with
          | some sid =>
              speciateLoop cfg genomes rest (pushMember species sid hd.1)
          | none => speciateLoop cfg genomes rest
              (species ++ [(species.length, [hd.1])])) = _
        rw [hfound]
        rfl
      have hkeys' : (species ++ [(species.length, [hd.1])]).map Prod.fst
          = List.range (species ++ [(species.length, [hd.1])]).length := by
        rw [List.map_append, List.length_append, hkeys]
        simp [List.range_succ]
      have hne' : ∀ s ∈ species ++ [(species.length, [hd.1])], s.2 ≠ [] := by
        intro s hs
        rcases List.mem_append.mp hs with h | h
        · exact hne s h
        · rw [List.mem_singleton.mp h]
          simp
      obtain ⟨out, hout, hk, hn, hperm⟩ :=
        ih (species ++ [(species.length, [hd.1])]) htodo' hkeys' hne'
      refine ⟨out, hstep.trans hout, hk, hn, ?_⟩
      have hj : ((species ++ [(species.length, [hd.1])]).map Prod.snd).flatten
          = ((species.map Prod.snd).flatten) ++ [hd.1] := by
        rw [List.map_append, List.flatten_append]
        rfl
      rw [hj] at hperm
      refine hperm.trans ?_
      rw [List.map_cons, List.append_assoc]
      exact List.Perm.refl _
    · have hstep : speciateLoop cfg genomes (hd :: rest) species
          = speciateLoop cfg genomes rest (pushMember species sid hd.1) := by
        show (firstRelatedSpecies cfg genomes hd.2 species).bind (fun found =>
          match found with
          | some sid =>
              speciateLoop cfg genomes rest (pushMember species sid hd.1)
          | none => speciateLoop cfg genomes rest
              (species ++ [(species.length, [hd.1])])) = _
        rw [hfound]
        rfl
      have hsidmem : sid ∈ species.map Prod.fst := firstRelated_mem hfound
      have hndk : (species.map Prod.fst).Nodup := by
        rw [hkeys]
        exact List.nodup_range _
      have hkeys' : (pushMember species sid hd.1).map Prod.fst
          = List.range (pushMember species sid hd.1).length := by
        have hlen : (pushMember species sid hd.1).length = species.length := by
          rw [pushMember]
          exact List.length_map _ _
        rw [pushMember_keys, hlen]
        exact hkeys
      have hne' := @pushMember_ne_nil species sid hd.1 hne
      obtain ⟨out, hout, hk, hn, hperm⟩ :=
        ih (pushMember species sid hd.1) htodo' hkeys' hne'
      refine ⟨out, hstep.trans hout, hk, hn, ?_⟩
      have hpj := pushMember_join_perm sid hd.1 species hndk hsidmem
      refine hperm.trans ?_
      refine (hpj.append (List.Perm.refl _)).trans ?_
      rw [List.map_cons]
      exact List.perm_middle.symm

/-- C10: with distinct genome ids (the `HashMap` key invariant) and
duplicate-free innovation numbers in every genome (so that
`are_genomes_related` never panics), `speciate` succeeds in every iteration
order and the resulting species partition the current genome ids: the
species keys are exactly `0..n`, every member list is non-empty, the member
lists joined are a permutation of the genome ids — so each current id
occurs in exactly one list — and the species lookup of `species_size_for`
(the same search `adjusted_fitnesses` performs) succeeds for every current
genome. -/
theorem c10_speciate_partition (cfg : Configuration)
    (genomes : List (Nat × CoreGenome))
    (hids : (genomes.map Prod.fst).Nodup)
    (hinn : ∀ p ∈ genomes, (innovationsOf p.2.connections).Nodup) :
    ∃ sp, speciate cfg genomes = some sp
      ∧ sp.map Prod.fst = List.range sp.length
      ∧ (∀ s ∈ sp, s.2 ≠ [])
      ∧ ((sp.map Prod.snd).flatten).Perm (genomes.map Prod.fst)
      ∧ (∀ p ∈ genomes, ((sp.map Prod.snd).flatten).count p.1 = 1)
      ∧ (∀ p ∈ genomes, (species_size_for sp p.1).isSome = true) := by
  obtain ⟨out, hout, hk, hn, hperm⟩ := speciateLoop_spec cfg genomes hinn
    genomes [] (fun p hp => hp) rfl (by intro s hs; simp at hs)
  have hperm' : ((out.map Prod.snd).flatten).Perm (genomes.map Prod.fst) := by
    simpa using hperm
  refine ⟨out, hout, hk, hn, hperm', ?_, ?_⟩
  · intro p hp
    rw [hperm'.count_eq]
    exact List.count_eq_one_of_mem hids (List.mem_map_of_mem Prod.fst hp)
  · intro p hp
    have hmemj : p.1 ∈ (out.map Prod.snd).flatten :=
      hperm'.mem_iff.mpr (List.mem_map_of_mem Prod.fst hp)
    rw [List.mem_flatten] at hmemj
    obtain ⟨m, hm, hpm⟩ := hmemj
    rw [List.mem_map] at hm
    obtain ⟨s, hs, rfl⟩ := hm
    have hfind : (out.find? (fun q => q.2.contains p.1)).isSome = true :=
      List.find?_isSome.mpr ⟨s, hs, contains_iff_mem.mpr hpm⟩
    obtain ⟨q, hq⟩ := Option.isSome_iff_exists.mp hfind
    rw [species_size_for, hq]
    rfl

/-- C10 witness: two genomes with ids 3 and 4 and identical two-node bodies
form a single species `0` holding both ids exactly once, and the
species-size lookup succeeds for both. -/
theorem c10_witness :
    ∃ sp, speciate cfgUnit genomesC10 = some sp
      ∧ sp.map Prod.fst = List.range sp.length
      ∧ (∀ s ∈ sp, s.2 ≠ [])
      ∧ ((sp.map Prod.snd).flatten).Perm (genomesC10.map Prod.fst)
      ∧ (∀ p ∈ genomesC10, ((sp.map Prod.snd).flatten).count p.1 = 1)
      ∧ (∀ p ∈ genomesC10, (species_size_for sp p.1).isSome = true) :=
  c10_speciate_partition cfgUnit genomesC10 (by decide) (by decide)

end Neat
